import Mathlib

set_option maxHeartbeats 1000000

/-!
Verification of the Secret Santa matcher (`src/utils/secretSantaMatcher.ts`),
a Hopcroft–Karp bipartite matching implementation.

Modelling conventions:
* `secretSantaPair` entries are `Option Nat`, with `none` for the JS `-1`.
* `searchDistance` entries are `Option Nat`, with `none` for `Infinity`.
* JS array reads out of bounds are modelled with `List.getD` defaults chosen so
  that the comparisons behave like the JS comparisons on `undefined`.
* The BFS queue loop and the DFS recursion are given explicit fuel; the fuel
  values used by the top-level entry points are provably never exhausted
  (BFS performs at most one pop per initial queue element plus one per
  distance entry that turns finite; DFS recursion strictly increases the
  distance, which is bounded by the array length).
* The JS `Map` is an insertion-ordered association list; `Map.set` overwrites
  in place when the key exists.
* The random shuffle is modelled by quantifying over any pointwise permutation
  of the adjacency lists (`Shuffles`).
-/

namespace SecretSanta

/-- State of a `SecretSantaMatcher` instance. -/
structure Matcher where
  givers : List Int
  receivers : List Int
  conns : List (List Nat)
  pair : List (Option Nat)
  searchDistance : List (Option Nat)
deriving Repr, DecidableEq

/-- The constructor: `participantsCount = givers.length + receivers.length`,
adjacency lists empty, all vertices unmatched, distances `Infinity`
(one extra slot for the sentinel). -/
def newMatcher (givers receivers : List Int) : Matcher :=
  let participantsCount := givers.length + receivers.length
  { givers := givers
    receivers := receivers
    conns := List.replicate participantsCount []
    pair := List.replicate participantsCount none
    searchDistance := List.replicate (participantsCount + 1) none }

/-- `addSecretSantaPairing(giver, receiver)`: bounds check, then push
`givers.length + receiver` onto giver's adjacency list. -/
def addSecretSantaPairing (m : Matcher) (giver receiver : Int) : Except String Matcher :=
  if giver < 0 ∨ (m.givers.length : Int) ≤ giver ∨
      receiver < 0 ∨ (m.receivers.length : Int) ≤ receiver then
    .error "Participant indices are out of bounds."
  else
    let receiverIndex := m.givers.length + receiver.toNat
    .ok { m with conns := m.conns.set giver.toNat
                   ((m.conns.getD giver.toNat []) ++ [receiverIndex]) }

/-- `pairedParticipant === -1 ? participantsCount : pairedParticipant`. -/
def pairedIdx (pair : List (Option Nat)) (n v : Nat) : Nat :=
  match pair.getD v none with
  | none => n
  | some p => p

/-- The `forEach` body of `initializeSearchLayer`: scan the adjacency list of
the dequeued vertex `c`, assigning distances to newly reached partners and
appending them to the queue (the sentinel `n` is never enqueued). -/
def bfsScan (pair : List (Option Nat)) (n c : Nat) :
    List Nat → List (Option Nat) → List Nat → List (Option Nat) × List Nat
  | [], dist, queue => (dist, queue)
  | v :: vs, dist, queue =>
    let w := pairedIdx pair n v
    if dist.getD w (some 0) = none then
      let dist' := dist.set w ((dist.getD c (some 0)).map (· + 1))
      let queue' := if w = n then queue else queue ++ [w]
      bfsScan pair n c vs dist' queue'
    else
      bfsScan pair n c vs dist queue

/-- The `while (queue.length > 0)` loop of `initializeSearchLayer`.
One fuel unit per pop; the entry point supplies enough fuel. -/
def bfsLoop (conns : List (List Nat)) (pair : List (Option Nat)) (n : Nat) :
    Nat → List (Option Nat) → List Nat → List (Option Nat)
  | 0, dist, _ => dist
  | _ + 1, dist, [] => dist
  | fuel + 1, dist, c :: rest =>
    if c < n then
      let s := bfsScan pair n c (conns.getD c []) dist rest
      bfsLoop conns pair n fuel s.1 s.2
    else
      bfsLoop conns pair n fuel dist rest

/-- `initializeSearchLayer`: reset all distances to `Infinity`, give distance 0
to unmatched givers and enqueue them, then run the BFS.  Returns the final
distance array; the boolean result of the JS method is `bfsSuccess` below. -/
def initializeSearchLayer (conns : List (List Nat)) (pair : List (Option Nat))
    (G n : Nat) : List (Option Nat) :=
  let start := (List.range G).foldl
    (fun s p => if pair.getD p none = none then (s.1.set p (some 0), s.2 ++ [p]) else s)
    (List.replicate (n + 1) (none : Option Nat), ([] : List Nat))
  bfsLoop conns pair n (G + (n + 1)) start.1 start.2

/-- `return this.searchDistance[participantsCount] !== Infinity`. -/
def bfsSuccess (dist : List (Option Nat)) (n : Nat) : Bool :=
  (dist.getD n none).isSome

/-- The `.some` callback of `attemptAssignment`: for each edge `v`, recurse
(via `tryPair`, the one-level-deeper DFS) into the partner (or sentinel) when
its layer is exactly one deeper; on success set `pair[v] := u` then
`pair[u] := v`. -/
def attemptEdges (dist : List (Option Nat)) (n u : Nat)
    (tryPair : Nat → List (Option Nat) → Bool × List (Option Nat)) :
    List Nat → List (Option Nat) → Bool × List (Option Nat)
  | [], pair => (false, pair)
  | v :: vs, pair =>
    let w := pairedIdx pair n v
    if dist.getD w none = (dist.getD u none).map (· + 1) then
      match tryPair w pair with
      | (true, pair') => (true, (pair'.set v (some u)).set u (some v))
      | (false, pair') => attemptEdges dist n u tryPair vs pair'
    else
      attemptEdges dist n u tryPair vs pair

/-- `attemptAssignment` (layered DFS).  Success at the sentinel; otherwise try
each adjacent receiver in order.  `fuel` bounds the recursion depth; along the
layered recursion the distance strictly increases and is bounded by the length
of the distance array, so the fuel supplied by `augmentPass` below is never
exhausted. -/
def attemptAssignment (conns : List (List Nat)) (dist : List (Option Nat)) (n : Nat) :
    Nat → Nat → List (Option Nat) → Bool × List (Option Nat)
  | 0, _, pair => (false, pair)
  | fuel + 1, u, pair =>
    if u = n then (true, pair)
    else attemptEdges dist n u (attemptAssignment conns dist n fuel)
           (conns.getD u []) pair

/-- The `for (participant …)` loop of `generateSecretSantaPairs`: run the DFS
from every still-unmatched giver. -/
def augmentPass (conns : List (List Nat)) (dist : List (Option Nat)) (n G fuel : Nat)
    (pair : List (Option Nat)) : List (Option Nat) :=
  (List.range G).foldl
    (fun pair u =>
      if pair.getD u none = none then (attemptAssignment conns dist n fuel u pair).2
      else pair)
    pair

/-- The `while (this.initializeSearchLayer())` loop.  Returns the final match
state together with the final (failed) distance array.  The fuel `G + 1` used
by `generateSecretSantaPairs` is provably sufficient: each iteration strictly
increases the number of matched givers. -/
def hkLoop (conns : List (List Nat)) (n G : Nat) :
    Nat → List (Option Nat) → List (Option Nat) × List (Option Nat)
  | 0, pair => (pair, initializeSearchLayer conns pair G n)
  | fuel + 1, pair =>
    let dist := initializeSearchLayer conns pair G n
    if bfsSuccess dist n then
      hkLoop conns n G fuel (augmentPass conns dist n G (n + 2) pair)
    else
      (pair, dist)

/-- JS `Map.prototype.set`: overwrite in place if the key exists, else append. -/
def mapSet (m : List (Int × Int)) (k v : Int) : List (Int × Int) :=
  if m.any (fun e => e.1 = k) then m.map (fun e => if e.1 = k then (k, v) else e)
  else m ++ [(k, v)]

/-- The result-building loop of `generateSecretSantaPairs`: for each matched
giver `i`, `pairs.set(givers[i], receivers[pair[i] - G])`. -/
def extractPairs (m : Matcher) (finalPair : List (Option Nat)) : List (Int × Int) :=
  (List.range m.givers.length).foldl
    (fun pairs i =>
      match finalPair.getD i none with
      | none => pairs
      | some r =>
        mapSet pairs (m.givers.getD i 0) (m.receivers.getD (r - m.givers.length) 0))
    []

/-- One step of the result-building loop of `generateSecretSantaPairs`. -/
def extractStep (m : Matcher) (P : List (Option Nat)) :
    List (Int × Int) → Nat → List (Int × Int) :=
  fun pairs i =>
    match P.getD i none with
    | none => pairs
    | some r => mapSet pairs (m.givers.getD i 0) (m.receivers.getD (r - m.givers.length) 0)

/-- `generateSecretSantaPairs`, parametrised by the shuffled adjacency lists
(the effect of `shuffleParticipantConnections`).  Returns the result map and
the post-call instance state. -/
def generateSecretSantaPairs (m : Matcher) (shuffled : List (List Nat)) :
    List (Int × Int) × Matcher :=
  let n := shuffled.length
  let G := m.givers.length
  let res := hkLoop shuffled n G (G + 1) m.pair
  (extractPairs m res.1,
   { m with conns := shuffled, pair := res.1, searchDistance := res.2 })

/-- `shuffleParticipantConnections` permutes each adjacency list in place:
any pointwise permutation is a possible behaviour of the random source. -/
def Shuffles (a b : List (List Nat)) : Prop :=
  List.Forall₂ (fun x y => x.Perm y) a b

/-- A concrete two-participant instance (identifiers `1` and `2`, edges
`(0,1)` and `(1,0)` registered), used to evaluate the theorems on an
executable input. -/
def sampleMatcher : Matcher :=
  { givers := [1, 2], receivers := [1, 2], conns := [[3], [2], [], []],
    pair := [none, none, none, none],
    searchDistance := [none, none, none, none, none] }

/-- The same two-participant graph, but with the two givers sharing the
domain identifier `5`. -/
def dupMatcher : Matcher :=
  { givers := [5, 5], receivers := [5, 5], conns := [[3], [2], [], []],
    pair := [none, none, none, none],
    searchDistance := [none, none, none, none, none] }

/-! ### Specification-level predicates used by the proofs -/

/-- Well-formed adjacency structure, as established by the constructor and
`addSecretSantaPairing`: every registered edge points into the receiver range
`[G, n)`, and vertices outside the giver range own no edges. -/
def GoodConns (conns : List (List Nat)) (G n : Nat) : Prop :=
  (∀ g, ∀ v ∈ conns.getD g [], G ≤ v ∧ v < n) ∧
  (∀ g, G ≤ g → conns.getD g [] = [])

/-- Well-formed match state: length `n`, partners stay inside the vertex
space and cross sides, and the pairing is symmetric. -/
def GoodPair (pair : List (Option Nat)) (G n : Nat) : Prop :=
  pair.length = n ∧
  (∀ u v, pair.getD u none = some v → v < n ∧ (u < G ↔ ¬ v < G)) ∧
  (∀ u v, pair.getD u none = some v → pair.getD v none = some u)

/-- Number of matched givers. -/
def matchedCount (pair : List (Option Nat)) (G : Nat) : Nat :=
  (List.range G).countP (fun i => (pair.getD i none).isSome)

/-- A layered path to the sentinel, as traversed by `attemptAssignment`:
from `u`, an edge `v` whose partner (or the sentinel) sits exactly one layer
deeper, ending at the sentinel. -/
def SentinelPath (conns : List (List Nat)) (dist pair : List (Option Nat)) (n : Nat) :
    Nat → List Nat → Prop
  | _, [] => False
  | u, v :: vs =>
    v ∈ conns.getD u [] ∧
    dist.getD (pairedIdx pair n v) none = (dist.getD u none).map (· + 1) ∧
    ((pairedIdx pair n v = n ∧ vs = []) ∨
      (pairedIdx pair n v ≠ n ∧ SentinelPath conns dist pair n (pairedIdx pair n v) vs))

/-- An augmenting path with respect to the match state `pair`: starting at
giver `u`, alternate unmatched edge / matched edge, ending at an unmatched
receiver. -/
def IsAugPath (conns : List (List Nat)) (pair : List (Option Nat)) :
    Nat → List Nat → Prop
  | _, [] => False
  | u, v :: vs =>
    v ∈ conns.getD u [] ∧
    ((pair.getD v none = none ∧ vs = []) ∨
      (∃ g', pair.getD v none = some g' ∧ IsAugPath conns pair g' vs))

/-- Number of `Infinity` entries of a distance array. -/
def countNone (l : List (Option Nat)) : Nat :=
  l.countP (fun o => o.isNone)

/-- A layered walk from `u` to `w`: at each step an edge `v` whose partner
(or the sentinel) sits exactly one layer deeper. -/
def PathTo (conns : List (List Nat)) (dist pair : List (Option Nat)) (n : Nat) :
    Nat → List Nat → Nat → Prop
  | u, [], w => u = w
  | u, v :: vs, w =>
    v ∈ conns.getD u [] ∧
    dist.getD (pairedIdx pair n v) none = (dist.getD u none).map (· + 1) ∧
    PathTo conns dist pair n (pairedIdx pair n v) vs w

/-- A matching of the registered graph: a set of edges (pairs of giver index
and receiver vertex), no two sharing a giver, no two sharing a receiver. -/
def IsMatching (conns : List (List Nat)) (G : Nat) (M : Finset (Nat × Nat)) : Prop :=
  (∀ p ∈ M, p.1 < G ∧ p.2 ∈ conns.getD p.1 []) ∧
  (∀ p ∈ M, ∀ q ∈ M, p.1 = q.1 → p = q) ∧
  (∀ p ∈ M, ∀ q ∈ M, p.2 = q.2 → p = q)

/-- Matchers reachable by constructing a `SecretSantaMatcher` and performing
any sequence of successful `addSecretSantaPairing` calls: the adjacency
structure spans `G + R` vertices, edges go from givers into the receiver
range, and the match state is still untouched. -/
def ValidMatcher (m : Matcher) : Prop :=
  m.conns.length = m.givers.length + m.receivers.length ∧
  m.pair = List.replicate (m.givers.length + m.receivers.length) none ∧
  (∀ g, ∀ v ∈ m.conns.getD g [],
    m.givers.length ≤ v ∧ v < m.givers.length + m.receivers.length) ∧
  (∀ g, m.givers.length ≤ g → m.conns.getD g [] = [])

/-- Post-condition of a successful `attemptAssignment` call at vertex `u`
(sitting at layer `d`) that turned `pair` into `p'`:
1. `u` got a partner along one of its registered edges, linked symmetrically;
2. the only asymmetric entries of `p'` are stale pointers that already pointed
   at `u` in `pair`;
3. `u`'s new partner is not its old partner;
4. entries at layers `≤ d` other than `u` are untouched;
5. receivers whose partner sits at a layer `≤ d` are untouched;
6. matched vertices stay matched;
7. partners still cross sides and stay in range;
8. giver entries are only ever set along registered edges. -/
def DfsPost (conns : List (List Nat)) (dist : List (Option Nat)) (n G : Nat)
    (u d : Nat) (pair p' : List (Option Nat)) : Prop :=
  (∃ v, v ∈ conns.getD u [] ∧ p'.getD u none = some v ∧ p'.getD v none = some u) ∧
  (∀ a b, p'.getD a none = some b →
    p'.getD b none = some a ∨ (b = u ∧ pair.getD a none = some u)) ∧
  (∀ a, pair.getD a none = some u → p'.getD u none ≠ some a) ∧
  (∀ a e, a ≠ u → dist.getD a none = some e → e ≤ d →
    p'.getD a none = pair.getD a none) ∧
  (∀ v' g' e, pair.getD v' none = some g' → dist.getD g' none = some e → e ≤ d →
    p'.getD v' none = pair.getD v' none) ∧
  (∀ a, pair.getD a none ≠ none → p'.getD a none ≠ none) ∧
  (∀ a b, p'.getD a none = some b → b < n ∧ (a < G ↔ ¬ b < G)) ∧
  (∀ g x, g < G → p'.getD g none = some x →
    x ∈ conns.getD g [] ∨ pair.getD g none = some x)

/-- Full specification of an `attemptAssignment` call: the result keeps the
length, a failed call leaves the match state untouched, a call at the sentinel
leaves it untouched, and a successful call at a vertex satisfies `DfsPost`. -/
def DfsSpec (conns : List (List Nat)) (dist : List (Option Nat)) (n G : Nat)
    (u d : Nat) (pair : List (Option Nat)) (r : Bool × List (Option Nat)) : Prop :=
  r.2.length = pair.length ∧
  (r.1 = false → r.2 = pair) ∧
  (u = n → r.2 = pair) ∧
  (r.1 = true → u ≠ n → DfsPost conns dist n G u d pair r.2)

/-! ### Generic list helpers -/

theorem getD_set_self {α : Type} (l : List α) (i : Nat) (v d : α) (h : i < l.length) :
    (l.set i v).getD i d = v := by
  simp [List.getD_eq_getElem?_getD, List.getElem?_set, h]

theorem getD_set_ne {α : Type} (l : List α) {i j : Nat} (v d : α) (h : i ≠ j) :
    (l.set i v).getD j d = l.getD j d := by
  simp [List.getD_eq_getElem?_getD, List.getElem?_set_ne h]

/-! ### The DFS augmentation step -/

theorem attemptEdges_cons (dist : List (Option Nat)) (n u : Nat)
    (tryPair : Nat → List (Option Nat) → Bool × List (Option Nat))
    (v : Nat) (vs : List Nat) (pair : List (Option Nat)) :
    attemptEdges dist n u tryPair (v :: vs) pair =
      if dist.getD (pairedIdx pair n v) none = (dist.getD u none).map (· + 1) then
        match tryPair (pairedIdx pair n v) pair with
        | (true, pair') => (true, (pair'.set v (some u)).set u (some v))
        | (false, pair') => attemptEdges dist n u tryPair vs pair'
      else attemptEdges dist n u tryPair vs pair := rfl

/-- One successful augmentation step: if the recursive call on `v`'s partner
(or the trivial call at the sentinel, when `v` is unmatched) succeeded and
produced `p₁`, then rewiring `pair[v] := u; pair[u] := v` satisfies the DFS
post-condition at `u`. -/
theorem dfsPost_step (conns : List (List Nat)) (dist : List (Option Nat)) (n G u d : Nat)
    (pair p₁ : List (Option Nat)) (v w : Nat)
    (hGn : G ≤ n) (hu : u < G) (hd : dist.getD u none = some d)
    (hrd : ∀ x, G ≤ x → x < n → dist.getD x none = none)
    (hcross : ∀ a b, pair.getD a none = some b → b < n ∧ (a < G ↔ ¬ b < G))
    (hsym : ∀ a b, pair.getD a none = some b → pair.getD b none = some a)
    (hplen : pair.length = n) (hlen₁ : p₁.length = pair.length)
    (hv : v ∈ conns.getD u []) (hvG : G ≤ v) (hvn : v < n)
    (HW : (pair.getD v none = none ∧ p₁ = pair) ∨
      (pair.getD v none = some w ∧ w < G ∧ dist.getD w none = some (d + 1) ∧
        DfsPost conns dist n G w (d + 1) pair p₁)) :
    DfsPost conns dist n G u d pair ((p₁.set v (some u)).set u (some v)) := by
  have hun2 : u < n := lt_of_lt_of_le hu hGn
  have huv : u ≠ v := by omega
  have hlp₁ : p₁.length = n := hlen₁.trans hplen
  have hP'u : ((p₁.set v (some u)).set u (some v)).getD u none = some v :=
    getD_set_self _ u _ none (by rw [List.length_set]; omega)
  have hP'v : ((p₁.set v (some u)).set u (some v)).getD v none = some u := by
    rw [getD_set_ne _ _ _ huv]
    exact getD_set_self _ v _ none (by omega)
  have hP'o : ∀ a, a ≠ u → a ≠ v →
      ((p₁.set v (some u)).set u (some v)).getD a none = p₁.getD a none := by
    intro a hau hav
    rw [getD_set_ne _ _ _ (Ne.symm hau), getD_set_ne _ _ _ (Ne.symm hav)]
  rcases HW with ⟨hpv, rfl⟩ | ⟨hpv, hwG, hdw, post₁⟩
  · -- `v` was unmatched; the recursive call was on the sentinel and did nothing
    refine ⟨⟨v, hv, hP'u, hP'v⟩, ?_, ?_, ?_, ?_, ?_, ?_, ?_⟩
    · intro a b hab
      by_cases hau : a = u
      · subst hau; rw [hP'u] at hab
        cases hab; exact Or.inl hP'v
      · by_cases hav : a = v
        · subst hav; rw [hP'v] at hab
          cases hab; exact Or.inl hP'u
        · rw [hP'o a hau hav] at hab
          have hba := hsym a b hab
          by_cases hbu : b = u
          · exact Or.inr ⟨hbu, hbu ▸ hab⟩
          · by_cases hbv : b = v
            · rw [hbv, hpv] at hba; cases hba
            · exact Or.inl (by rw [hP'o b hbu hbv]; exact hba)
    · intro a ha
      rw [hP'u]
      intro h
      cases h
      rw [hpv] at ha; cases ha
    · intro a e hau hde hle
      by_cases hv' : a = v
      · rw [hv', hrd v hvG hvn] at hde; cases hde
      · exact hP'o a hau hv'
    · intro v' g' e hpv' hdg' hle
      by_cases h1 : v' = u
      · rw [h1] at hpv'
        have h2 := hcross u g' hpv'
        rw [hrd g' (by omega) h2.1] at hdg'
        cases hdg'
      · by_cases h2 : v' = v
        · rw [h2, hpv] at hpv'; cases hpv'
        · exact hP'o v' h1 h2
    · intro a ha
      by_cases hau : a = u
      · subst hau; rw [hP'u]; simp
      · by_cases hav : a = v
        · subst hav; rw [hP'v]; simp
        · rw [hP'o a hau hav]; exact ha
    · intro a b hab
      by_cases hau : a = u
      · subst hau; rw [hP'u] at hab; cases hab
        exact ⟨hvn, by omega⟩
      · by_cases hav : a = v
        · subst hav; rw [hP'v] at hab; cases hab
          exact ⟨hun2, by omega⟩
        · rw [hP'o a hau hav] at hab; exact hcross a b hab
    · intro g x hg hgx
      by_cases hgu : g = u
      · subst hgu; rw [hP'u] at hgx; cases hgx
        exact Or.inl hv
      · by_cases hgv : g = v
        · omega
        · rw [hP'o g hgu hgv] at hgx
          exact Or.inr hgx
  · -- `v` was matched to `w`; the recursive call rewired `w`
    obtain ⟨⟨vb, hvbmem, hp₁w, hp₁vb⟩, T2₁, T3₁, T4₁, T5₁, T6₁, T9₁, T10₁⟩ := post₁
    have hwu : w ≠ u := by
      intro h
      rw [h, hd] at hdw
      cases hdw
    have hpw : pair.getD w none = some v := hsym v w hpv
    have hp₁u : p₁.getD u none = pair.getD u none :=
      T4₁ u d (Ne.symm hwu) hd (Nat.le_succ d)
    have hp₁v : p₁.getD v none = pair.getD v none := T5₁ v w (d + 1) hpv hdw le_rfl
    have hp₁wv : p₁.getD w none ≠ some v := T3₁ v hpv
    refine ⟨⟨v, hv, hP'u, hP'v⟩, ?_, ?_, ?_, ?_, ?_, ?_, ?_⟩
    · intro a b hab
      by_cases hau : a = u
      · subst hau; rw [hP'u] at hab; cases hab; exact Or.inl hP'v
      · by_cases hav : a = v
        · subst hav; rw [hP'v] at hab; cases hab; exact Or.inl hP'u
        · rw [hP'o a hau hav] at hab
          rcases T2₁ a b hab with hba | ⟨hbw, haw⟩
          · by_cases hbu : b = u
            · rw [hbu, hp₁u] at hba
              exact Or.inr ⟨hbu, hsym u a hba⟩
            · by_cases hbv : b = v
              · rw [hbv, hp₁v, hpv] at hba
                cases hba
                rw [hbv] at hab
                exact absurd hab hp₁wv
              · exact Or.inl (by rw [hP'o b hbu hbv]; exact hba)
          · exfalso
            have := hsym a w haw
            rw [hpw] at this
            cases this
            exact hav rfl
    · intro a ha
      rw [hP'u]
      intro h
      cases h
      rw [hpv] at ha
      cases ha
      exact hwu rfl
    · intro a e hau hde hle
      by_cases hav : a = v
      · rw [hav, hrd v hvG hvn] at hde; cases hde
      · rw [hP'o a hau hav]
        have haw : a ≠ w := by
          intro h
          rw [h, hdw] at hde
          cases hde; omega
        exact T4₁ a e haw hde (by omega)
    · intro v' g' e hpv' hdg' hle
      by_cases h1 : v' = u
      · rw [h1] at hpv'
        have h2 := hcross u g' hpv'
        rw [hrd g' (by omega) h2.1] at hdg'
        cases hdg'
      · by_cases h2 : v' = v
        · rw [h2, hpv] at hpv'
          cases hpv'
          rw [hdw] at hdg'
          cases hdg'
          omega
        · rw [hP'o v' h1 h2]
          exact T5₁ v' g' e hpv' hdg' (by omega)
    · intro a ha
      by_cases hau : a = u
      · subst hau; rw [hP'u]; simp
      · by_cases hav : a = v
        · subst hav; rw [hP'v]; simp
        · rw [hP'o a hau hav]; exact T6₁ a ha
    · intro a b hab
      by_cases hau : a = u
      · subst hau; rw [hP'u] at hab; cases hab
        exact ⟨hvn, by omega⟩
      · by_cases hav : a = v
        · subst hav; rw [hP'v] at hab; cases hab
          exact ⟨hun2, by omega⟩
        · rw [hP'o a hau hav] at hab; exact T9₁ a b hab
    · intro g x hg hgx
      by_cases hgu : g = u
      · subst hgu; rw [hP'u] at hgx; cases hgx
        exact Or.inl hv
      · by_cases hgv : g = v
        · omega
        · rw [hP'o g hgu hgv] at hgx
          exact T10₁ g x hg hgx

theorem pairedIdx_none {pair : List (Option Nat)} {n v : Nat}
    (h : pair.getD v none = none) : pairedIdx pair n v = n := by
  unfold pairedIdx; rw [h]

theorem pairedIdx_some {pair : List (Option Nat)} {n v p : Nat}
    (h : pair.getD v none = some p) : pairedIdx pair n v = p := by
  unfold pairedIdx; rw [h]

/-- Specification of the edge scan of `attemptAssignment` at vertex `u`,
assuming the recursion (`tryPair`) meets its own specification one layer
deeper.  A failed scan leaves the match state untouched; a successful scan
satisfies the DFS post-condition. -/
theorem attemptEdges_spec (conns : List (List Nat)) (dist : List (Option Nat)) (n G : Nat)
    (hGn : G ≤ n)
    (hc1 : ∀ g, ∀ v ∈ conns.getD g [], G ≤ v ∧ v < n)
    (hrd : ∀ x, G ≤ x → x < n → dist.getD x none = none)
    (u d : Nat) (hu : u < G) (hd : dist.getD u none = some d)
    (tryPair : Nat → List (Option Nat) → Bool × List (Option Nat))
    (pair : List (Option Nat))
    (hplen : pair.length = n)
    (hcross : ∀ a b, pair.getD a none = some b → b < n ∧ (a < G ↔ ¬ b < G))
    (hsym : ∀ a b, pair.getD a none = some b → pair.getD b none = some a)
    (htry : ∀ w, ((w < G ∧ dist.getD w none = some (d + 1)) ∨ w = n) →
      DfsSpec conns dist n G w (d + 1) pair (tryPair w pair)) :
    ∀ es, (∀ v ∈ es, v ∈ conns.getD u []) →
      (attemptEdges dist n u tryPair es pair).2.length = pair.length ∧
      ((attemptEdges dist n u tryPair es pair).1 = false →
        (attemptEdges dist n u tryPair es pair).2 = pair) ∧
      ((attemptEdges dist n u tryPair es pair).1 = true →
        DfsPost conns dist n G u d pair (attemptEdges dist n u tryPair es pair).2) := by
  intro es
  induction es with
  | nil =>
    intro _
    exact ⟨rfl, fun _ => rfl, fun h => by cases h⟩
  | cons v vs ih =>
    intro hves
    have hv : v ∈ conns.getD u [] := hves v (List.mem_cons_self _ _)
    have hvr := hc1 u v hv
    by_cases hg : dist.getD (pairedIdx pair n v) none = (dist.getD u none).map (· + 1)
    · have hg' : dist.getD (pairedIdx pair n v) none = some (d + 1) := by
        rw [hg, hd]; rfl
      have hwcls : ((pairedIdx pair n v < G ∧
          dist.getD (pairedIdx pair n v) none = some (d + 1)) ∨ pairedIdx pair n v = n) := by
        cases hpv : pair.getD v none with
        | none => exact Or.inr (pairedIdx_none hpv)
        | some p =>
          have hcp := hcross v p hpv
          rw [pairedIdx_some hpv]
          rw [pairedIdx_some hpv] at hg'
          exact Or.inl ⟨by omega, hg'⟩
      have hspec := htry (pairedIdx pair n v) hwcls
      rcases hres : tryPair (pairedIdx pair n v) pair with ⟨found₁, p₁⟩
      rw [hres] at hspec
      obtain ⟨hlen₁, hfail₁, hsent₁, hsucc₁⟩ := hspec
      cases found₁ with
      | false =>
        have hp₁ : p₁ = pair := hfail₁ rfl
        have hstep : attemptEdges dist n u tryPair (v :: vs) pair =
            attemptEdges dist n u tryPair vs pair := by
          rw [attemptEdges_cons, if_pos hg, hres, hp₁]
        rw [hstep]
        exact ih (fun x hx => hves x (List.mem_cons_of_mem _ hx))
      | true =>
        have hstep : attemptEdges dist n u tryPair (v :: vs) pair =
            (true, (p₁.set v (some u)).set u (some v)) := by
          rw [attemptEdges_cons, if_pos hg, hres]
        rw [hstep]
        refine ⟨?_, ?_, ?_⟩
        · simp only [List.length_set]; exact hlen₁
        · intro h; simp at h
        · intro _
          apply dfsPost_step conns dist n G u d pair p₁ v (pairedIdx pair n v) hGn hu hd
            hrd hcross hsym hplen hlen₁ hv hvr.1 hvr.2
          rcases hwcls with ⟨hwG, hdw⟩ | hwn
          · right
            have hne : pairedIdx pair n v ≠ n := by omega
            refine ⟨?_, hwG, hdw, hsucc₁ rfl hne⟩
            cases hpv : pair.getD v none with
            | none => exact absurd (pairedIdx_none hpv) hne
            | some p => rw [pairedIdx_some hpv]
          · left
            refine ⟨?_, hsent₁ hwn⟩
            cases hpv : pair.getD v none with
            | none => rfl
            | some p =>
              have hcp := hcross v p hpv
              rw [pairedIdx_some hpv] at hwn
              omega
    · have hstep : attemptEdges dist n u tryPair (v :: vs) pair =
          attemptEdges dist n u tryPair vs pair := by
        rw [attemptEdges_cons, if_neg hg]
      rw [hstep]
      exact ih (fun x hx => hves x (List.mem_cons_of_mem _ hx))

/-- Specification of `attemptAssignment` for every fuel value: failures leave
the state untouched, successes satisfy the DFS post-condition. -/
theorem attemptAssignment_spec (conns : List (List Nat)) (dist : List (Option Nat))
    (n G : Nat) (hGn : G ≤ n)
    (hc1 : ∀ g, ∀ v ∈ conns.getD g [], G ≤ v ∧ v < n)
    (hrd : ∀ x, G ≤ x → x < n → dist.getD x none = none) :
    ∀ fuel u d pair, pair.length = n →
      (∀ a b, pair.getD a none = some b → b < n ∧ (a < G ↔ ¬ b < G)) →
      (∀ a b, pair.getD a none = some b → pair.getD b none = some a) →
      (u ≠ n → u < G ∧ dist.getD u none = some d) →
      DfsSpec conns dist n G u d pair (attemptAssignment conns dist n fuel u pair) := by
  intro fuel
  induction fuel with
  | zero =>
    intro u d pair hplen hcross hsym hu
    exact ⟨rfl, fun _ => rfl, fun _ => rfl, fun h => by cases h⟩
  | succ fuel ih =>
    intro u d pair hplen hcross hsym hu
    by_cases hsent : u = n
    · have hstep : attemptAssignment conns dist n (fuel + 1) u pair = (true, pair) := by
        simp [attemptAssignment, hsent]
      rw [hstep]
      refine ⟨rfl, ?_, fun _ => rfl, ?_⟩
      · intro h; simp at h
      · intro _ hne; exact absurd hsent hne
    · obtain ⟨huG, hud⟩ := hu hsent
      have hstep : attemptAssignment conns dist n (fuel + 1) u pair =
          attemptEdges dist n u (attemptAssignment conns dist n fuel) (conns.getD u []) pair := by
        simp [attemptAssignment, hsent]
      rw [hstep]
      have hedges := attemptEdges_spec conns dist n G hGn hc1 hrd u d huG hud
        (attemptAssignment conns dist n fuel) pair hplen hcross hsym
        (fun w hw => ih w (d + 1) pair hplen hcross hsym (fun hwn => by
          rcases hw with ⟨h1, h2⟩ | h3
          · exact ⟨h1, h2⟩
          · exact absurd h3 hwn))
        (conns.getD u []) (fun v h => h)
      exact ⟨hedges.1, hedges.2.1, fun h => absurd h hsent, fun ht _ => hedges.2.2 ht⟩

theorem countP_lt_strict {α : Type} (l : List α) (p q : α → Bool)
    (hmono : ∀ x ∈ l, p x = true → q x = true) (x₀ : α) (hx : x₀ ∈ l)
    (hp : p x₀ = false) (hq : q x₀ = true) :
    l.countP p < l.countP q := by
  induction l with
  | nil => cases hx
  | cons a t ih =>
    rw [List.countP_cons, List.countP_cons]
    rcases List.mem_cons.mp hx with rfl | hxt
    · have h1 : List.countP p t ≤ List.countP q t :=
        List.countP_mono_left (fun x hxt' => hmono x (List.mem_cons_of_mem _ hxt'))
      rw [hp, hq]
      simp
      omega
    · have h1 := ih (fun x h => hmono x (List.mem_cons_of_mem _ h)) hxt
      have h2 : (if p a = true then 1 else 0) ≤ (if q a = true then 1 else 0) := by
        by_cases hpa : p a = true
        · simp [hpa, hmono a (List.mem_cons_self _ _) hpa]
        · simp [hpa]
      omega

/-- Specification of the augmentation sweep (stated for an arbitrary list of
giver vertices so that it can be proved by induction; `augmentPass` is the
instance at `List.range G`).  The sweep preserves well-formedness of the match
state, never unmatches anyone, only creates giver links along registered
edges, never decreases the matched count, and either strictly increases the
matched count or does nothing at all — in which case every DFS attempt from an
unmatched giver failed on the untouched state. -/
theorem augment_fold_spec (conns : List (List Nat)) (dist : List (Option Nat))
    (n G fuel : Nat) (hGn : G ≤ n)
    (hc1 : ∀ g, ∀ v ∈ conns.getD g [], G ≤ v ∧ v < n)
    (hrd : ∀ x, G ≤ x → x < n → dist.getD x none = none) :
    ∀ (us : List Nat) (pair : List (Option Nat)), (∀ u ∈ us, u < G) →
      GoodPair pair G n →
      (∀ g, g < G → pair.getD g none = none → dist.getD g none = some 0) →
      GoodPair (us.foldl (fun pair u =>
        if pair.getD u none = none then (attemptAssignment conns dist n fuel u pair).2
        else pair) pair) G n ∧
      (∀ a, pair.getD a none ≠ none → (us.foldl (fun pair u =>
        if pair.getD u none = none then (attemptAssignment conns dist n fuel u pair).2
        else pair) pair).getD a none ≠ none) ∧
      (∀ g x, g < G → (us.foldl (fun pair u =>
        if pair.getD u none = none then (attemptAssignment conns dist n fuel u pair).2
        else pair) pair).getD g none = some x →
        x ∈ conns.getD g [] ∨ pair.getD g none = some x) ∧
      matchedCount pair G ≤ matchedCount (us.foldl (fun pair u =>
        if pair.getD u none = none then (attemptAssignment conns dist n fuel u pair).2
        else pair) pair) G ∧
      (matchedCount pair G < matchedCount (us.foldl (fun pair u =>
        if pair.getD u none = none then (attemptAssignment conns dist n fuel u pair).2
        else pair) pair) G ∨
        ((us.foldl (fun pair u =>
          if pair.getD u none = none then (attemptAssignment conns dist n fuel u pair).2
          else pair) pair) = pair ∧
         ∀ u ∈ us, pair.getD u none = none →
           (attemptAssignment conns dist n fuel u pair).1 = false)) := by
  intro us
  induction us with
  | nil =>
    intro pair _ hgp _
    exact ⟨hgp, fun a h => h, fun g x _ h => Or.inr h, le_refl _,
      Or.inr ⟨rfl, fun u h => absurd h (List.not_mem_nil u)⟩⟩
  | cons u us' ih =>
    intro pair hus hgp hd0
    obtain ⟨hplen, hcross, hsym⟩ := hgp
    have huG : u < G := hus u (List.mem_cons_self _ _)
    have hun : u ≠ n := by omega
    rw [List.foldl_cons]
    by_cases hum : pair.getD u none = none
    · rw [if_pos hum]
      have hspec := attemptAssignment_spec conns dist n G hGn hc1 hrd fuel u 0 pair
        hplen hcross hsym (fun _ => ⟨huG, hd0 u huG hum⟩)
      rcases hres : attemptAssignment conns dist n fuel u pair with ⟨found, p₁⟩
      rw [hres] at hspec
      obtain ⟨hlen₁, hfail, _, hsucc⟩ := hspec
      cases found with
      | false =>
        have hp₁ : p₁ = pair := hfail rfl
        rw [show ((false, p₁) : Bool × List (Option Nat)).2 = pair from hfail rfl]
        obtain ⟨c1, c2, c3, c4, c5⟩ := ih pair (fun x hx => hus x (List.mem_cons_of_mem _ hx))
          ⟨hplen, hcross, hsym⟩ hd0
        refine ⟨c1, c2, c3, c4, ?_⟩
        rcases c5 with hlt | ⟨heq, hall⟩
        · exact Or.inl hlt
        · refine Or.inr ⟨heq, fun x hx hxu => ?_⟩
          rcases List.mem_cons.mp hx with rfl | hx'
          · rw [hres]
          · exact hall x hx' hxu
      | true =>
        have post : DfsPost conns dist n G u 0 pair p₁ := hsucc rfl hun
        have hlen₁' : p₁.length = pair.length := hlen₁
        obtain ⟨⟨vstar, hvmem, hp₁u, hp₁v⟩, T2, T3, T4, T5, T6, T9, T10⟩ := post
        rw [show ((true, p₁) : Bool × List (Option Nat)).2 = p₁ from rfl]
        have hsym₁ : ∀ a b, p₁.getD a none = some b → p₁.getD b none = some a := by
          intro a b hab
          rcases T2 a b hab with h' | ⟨hbu, hau⟩
          · exact h'
          · exact absurd (hsym a u (hbu ▸ hau)) (by rw [hum]; simp)
        have hgp₁ : GoodPair p₁ G n := ⟨hlen₁'.trans hplen, T9, hsym₁⟩
        have hstab₁ : ∀ a, pair.getD a none ≠ none → p₁.getD a none ≠ none := T6
        have hd0₁ : ∀ g, g < G → p₁.getD g none = none → dist.getD g none = some 0 := by
          intro g hg hgn
          by_cases hpg : pair.getD g none = none
          · exact hd0 g hg hpg
          · exact absurd hgn (hstab₁ g hpg)
        have hmc : matchedCount pair G < matchedCount p₁ G := by
          apply countP_lt_strict (List.range G) _ _ ?_ u (List.mem_range.mpr huG)
          · rw [hum]; rfl
          · rw [hp₁u]; rfl
          · intro x _ hx
            have := hstab₁ x (by intro h; rw [h] at hx; cases hx)
            cases hpx : p₁.getD x none with
            | none => exact absurd hpx this
            | some y => rfl
        obtain ⟨c1, c2, c3, c4, c5⟩ := ih p₁ (fun x hx => hus x (List.mem_cons_of_mem _ hx))
          hgp₁ hd0₁
        refine ⟨c1, fun a ha => c2 a (hstab₁ a ha), ?_, le_of_lt (lt_of_lt_of_le hmc c4), ?_⟩
        · intro g x hg hq
          rcases c3 g x hg hq with hin | hp₁g
          · exact Or.inl hin
          · rcases T10 g x hg hp₁g with hin | hpg
            · exact Or.inl hin
            · exact Or.inr hpg
        · exact Or.inl (lt_of_lt_of_le hmc c4)
    · rw [if_neg hum]
      obtain ⟨c1, c2, c3, c4, c5⟩ := ih pair (fun x hx => hus x (List.mem_cons_of_mem _ hx))
        ⟨hplen, hcross, hsym⟩ hd0
      refine ⟨c1, c2, c3, c4, ?_⟩
      rcases c5 with hlt | ⟨heq, hall⟩
      · exact Or.inl hlt
      · exact Or.inr ⟨heq, fun x hx hxu => by
          rcases List.mem_cons.mp hx with rfl | hx'
          · exact absurd hxu hum
          · exact hall x hx' hxu⟩

/-! ### BFS layering: helpers -/

theorem getD_of_getD_none {l : List (Option Nat)} {i x : Nat}
    (h : l.getD i none = some x) (d : Option Nat) : l.getD i d = some x := by
  rw [List.getD_eq_getElem?_getD] at h ⊢
  cases hl : l[i]? with
  | none => rw [hl] at h; simp at h
  | some o => rw [hl] at h; simpa using h

theorem getD_someZero {l : List (Option Nat)} {i : Nat}
    (h : l.getD i (some 0) = none) : i < l.length ∧ l.getD i none = none := by
  rw [List.getD_eq_getElem?_getD] at h
  cases hl : l[i]? with
  | none => rw [hl] at h; simp at h
  | some o =>
    rw [hl] at h
    simp at h
    refine ⟨(List.getElem?_eq_some.mp hl).1, ?_⟩
    rw [List.getD_eq_getElem?_getD, hl, h]
    rfl

theorem getD_entry_eq' {l : List (Option Nat)} {i : Nat} (hi : i < l.length)
    (d : Option Nat) : l.getD i d = l[i] := by
  rw [List.getD_eq_getElem?_getD, List.getElem?_eq_getElem hi]
  rfl

theorem getD_entry_eq {l : List (Option Nat)} {i : Nat} (hi : i < l.length) :
    l.getD i none = l[i] := getD_entry_eq' hi none

theorem countNone_le_length (l : List (Option Nat)) : countNone l ≤ l.length :=
  List.countP_le_length _

theorem countNone_set_some {l : List (Option Nat)} {i x : Nat} (hi : i < l.length)
    (hnone : l.getD i none = none) :
    countNone (l.set i (some x)) + 1 = countNone l := by
  have hentry : l[i] = none := by rw [← getD_entry_eq hi]; exact hnone
  have hpos : 0 < List.countP (fun o => o.isNone) l :=
    List.countP_pos_iff.mpr ⟨none, by rw [← hentry]; exact List.getElem_mem hi, rfl⟩
  rw [countNone, countNone, List.countP_set _ _ _ _ hi, hentry]
  simp
  omega

theorem getD_replicate_none (k i : Nat) :
    (List.replicate k (none : Option Nat)).getD i none = none := by
  rw [List.getD_eq_getElem?_getD, List.getElem?_replicate]
  split <;> rfl

theorem bfsScan_cons (pair : List (Option Nat)) (n c v : Nat) (vs : List Nat)
    (dist : List (Option Nat)) (queue : List Nat) :
    bfsScan pair n c (v :: vs) dist queue =
      if dist.getD (pairedIdx pair n v) (some 0) = none then
        bfsScan pair n c vs
          (dist.set (pairedIdx pair n v) ((dist.getD c (some 0)).map (· + 1)))
          (if pairedIdx pair n v = n then queue else queue ++ [pairedIdx pair n v])
      else bfsScan pair n c vs dist queue := rfl

/-- Full specification of one adjacency scan of the BFS: finite distances are
stable, every change is a fresh `some (dc+1)` reachable from `c` by a scanned
edge and gets enqueued (unless it is the sentinel), the queue only grows by
such vertices, every scanned edge ends finite, and the measure
`countNone + queue length` never grows. -/
theorem bfsScan_spec (pair : List (Option Nat)) (n c : Nat) :
    ∀ (es : List Nat) (dist : List (Option Nat)) (queue : List Nat) (dc : Nat),
      dist.getD c none = some dc →
      ∃ dist' queue', bfsScan pair n c es dist queue = (dist', queue') ∧
        dist'.length = dist.length ∧
        (∀ x, dist.getD x none ≠ none → dist'.getD x none = dist.getD x none) ∧
        (∀ x, dist'.getD x none ≠ dist.getD x none →
          dist.getD x none = none ∧ dist'.getD x none = some (dc + 1) ∧
          (∃ v ∈ es, pairedIdx pair n v = x) ∧ (x ≠ n → x ∈ queue')) ∧
        (∀ x ∈ queue, x ∈ queue') ∧
        (∀ x ∈ queue', x ∈ queue ∨ (x ≠ n ∧ x < dist.length ∧
          dist'.getD x none = some (dc + 1) ∧ ∃ v ∈ es, pairedIdx pair n v = x)) ∧
        (∀ v ∈ es, pairedIdx pair n v < dist.length →
          dist'.getD (pairedIdx pair n v) none ≠ none) ∧
        countNone dist' + queue'.length ≤ countNone dist + queue.length ∧
        countNone dist' ≤ countNone dist ∧
        (dist' = dist ∨ countNone dist' < countNone dist) := by
  intro es
  induction es with
  | nil =>
    intro dist queue dc _
    exact ⟨dist, queue, rfl, rfl, fun _ _ => rfl, fun x hx => absurd rfl hx,
      fun x hx => hx, fun x hx => Or.inl hx, fun v hv => absurd hv (List.not_mem_nil v),
      le_refl _, le_refl _, Or.inl rfl⟩
  | cons v vs ih =>
    intro dist queue dc hc
    by_cases hguard : dist.getD (pairedIdx pair n v) (some 0) = none
    · obtain ⟨hwlt, hwnone⟩ := getD_someZero hguard
      have hcw : c ≠ pairedIdx pair n v := by
        intro h
        rw [← h, hc] at hwnone
        cases hwnone
      have hval : (dist.getD c (some 0)).map (· + 1) = some (dc + 1) := by
        rw [getD_of_getD_none hc]
        rfl
      have hc₁ : (dist.set (pairedIdx pair n v) (some (dc + 1))).getD c none = some dc := by
        rw [getD_set_ne _ _ _ (Ne.symm hcw)]
        exact hc
      have hd₁w : (dist.set (pairedIdx pair n v) (some (dc + 1))).getD
          (pairedIdx pair n v) none = some (dc + 1) :=
        getD_set_self _ _ _ _ hwlt
      have hd₁o : ∀ x, x ≠ pairedIdx pair n v →
          (dist.set (pairedIdx pair n v) (some (dc + 1))).getD x none = dist.getD x none :=
        fun x hx => getD_set_ne _ _ _ (fun h => hx h.symm)
      have hcnt : countNone (dist.set (pairedIdx pair n v) (some (dc + 1))) + 1 =
          countNone dist := countNone_set_some hwlt hwnone
      by_cases hwn : pairedIdx pair n v = n
      · -- the write reached the sentinel: nothing is enqueued
        obtain ⟨dist', queue', heq, hlen, hstab, hchg, hsub, hmem, hscan, hmeas, hmono, hor⟩ :=
          ih (dist.set (pairedIdx pair n v) (some (dc + 1))) queue dc hc₁
        refine ⟨dist', queue', ?_, ?_, ?_, ?_, ?_, ?_, ?_, ?_, ?_, ?_⟩
        · rw [bfsScan_cons, if_pos hguard, hval, if_pos hwn]
          exact heq
        · rw [hlen, List.length_set]
        · intro x hx
          have hxw : x ≠ pairedIdx pair n v := by
            intro h
            rw [h, hwnone] at hx
            exact hx rfl
          rw [hstab x (by rw [hd₁o x hxw]; exact hx), hd₁o x hxw]
        · intro x hx
          by_cases hxw : x = pairedIdx pair n v
          · subst hxw
            refine ⟨hwnone, ?_, ⟨v, List.mem_cons_self _ _, rfl⟩, ?_⟩
            · rw [hstab _ (by rw [hd₁w]; simp), hd₁w]
            · intro hxn; exact absurd hwn hxn
          · have : dist'.getD x none ≠
                (dist.set (pairedIdx pair n v) (some (dc + 1))).getD x none := by
              rw [hd₁o x hxw]; exact hx
            obtain ⟨h1, h2, ⟨v', hv', hpv'⟩, h4⟩ := hchg x this
            rw [hd₁o x hxw] at h1
            exact ⟨h1, h2, ⟨v', List.mem_cons_of_mem _ hv', hpv'⟩, h4⟩
        · exact hsub
        · intro x hx
          rcases hmem x hx with hxq | ⟨h1, h2, h3, ⟨v', hv', hpv'⟩⟩
          · exact Or.inl hxq
          · exact Or.inr ⟨h1, by rw [List.length_set] at h2; exact h2, h3,
              ⟨v', List.mem_cons_of_mem _ hv', hpv'⟩⟩
        · intro v' hv' hvlt
          rcases List.mem_cons.mp hv' with rfl | hv''
          · rw [hstab _ (by rw [hd₁w]; simp), hd₁w]; simp
          · exact hscan v' hv'' (by rw [List.length_set]; exact hvlt)
        · omega
        · omega
        · right; omega
      · -- a giver vertex was newly reached and enqueued
        obtain ⟨dist', queue', heq, hlen, hstab, hchg, hsub, hmem, hscan, hmeas, hmono, hor⟩ :=
          ih (dist.set (pairedIdx pair n v) (some (dc + 1)))
            (queue ++ [pairedIdx pair n v]) dc hc₁
        refine ⟨dist', queue', ?_, ?_, ?_, ?_, ?_, ?_, ?_, ?_, ?_, ?_⟩
        · rw [bfsScan_cons, if_pos hguard, hval, if_neg hwn]
          exact heq
        · rw [hlen, List.length_set]
        · intro x hx
          have hxw : x ≠ pairedIdx pair n v := by
            intro h
            rw [h, hwnone] at hx
            exact hx rfl
          rw [hstab x (by rw [hd₁o x hxw]; exact hx), hd₁o x hxw]
        · intro x hx
          by_cases hxw : x = pairedIdx pair n v
          · subst hxw
            refine ⟨hwnone, ?_, ⟨v, List.mem_cons_self _ _, rfl⟩, ?_⟩
            · rw [hstab _ (by rw [hd₁w]; simp), hd₁w]
            · intro _
              exact hsub _ (List.mem_append_right _ (List.mem_singleton_self _))
          · have : dist'.getD x none ≠
                (dist.set (pairedIdx pair n v) (some (dc + 1))).getD x none := by
              rw [hd₁o x hxw]; exact hx
            obtain ⟨h1, h2, ⟨v', hv', hpv'⟩, h4⟩ := hchg x this
            rw [hd₁o x hxw] at h1
            exact ⟨h1, h2, ⟨v', List.mem_cons_of_mem _ hv', hpv'⟩, h4⟩
        · intro x hx
          exact hsub x (List.mem_append_left _ hx)
        · intro x hx
          rcases hmem x hx with hxq | ⟨h1, h2, h3, ⟨v', hv', hpv'⟩⟩
          · rcases List.mem_append.mp hxq with hxq' | hxw
            · exact Or.inl hxq'
            · have hxw' : x = pairedIdx pair n v := List.mem_singleton.mp hxw
              subst hxw'
              refine Or.inr ⟨hwn, hwlt, ?_, ⟨v, List.mem_cons_self _ _, rfl⟩⟩
              rw [hstab _ (by rw [hd₁w]; simp), hd₁w]
          · exact Or.inr ⟨h1, by rw [List.length_set] at h2; exact h2, h3,
              ⟨v', List.mem_cons_of_mem _ hv', hpv'⟩⟩
        · intro v' hv' hvlt
          rcases List.mem_cons.mp hv' with rfl | hv''
          · rw [hstab _ (by rw [hd₁w]; simp), hd₁w]; simp
          · exact hscan v' hv'' (by rw [List.length_set]; exact hvlt)
        · rw [List.length_append, List.length_singleton] at hmeas
          omega
        · omega
        · right; omega
    · obtain ⟨dist', queue', heq, hlen, hstab, hchg, hsub, hmem, hscan, hmeas, hmono, hor⟩ :=
        ih dist queue dc hc
      refine ⟨dist', queue', ?_, hlen, hstab, ?_, hsub, ?_, ?_, hmeas, hmono, hor⟩
      · rw [bfsScan_cons, if_neg hguard]
        exact heq
      · intro x hx
        obtain ⟨h1, h2, ⟨v', hv', hpv'⟩, h4⟩ := hchg x hx
        exact ⟨h1, h2, ⟨v', List.mem_cons_of_mem _ hv', hpv'⟩, h4⟩
      · intro x hx
        rcases hmem x hx with hxq | ⟨h1, h2, h3, ⟨v', hv', hpv'⟩⟩
        · exact Or.inl hxq
        · exact Or.inr ⟨h1, h2, h3, ⟨v', List.mem_cons_of_mem _ hv', hpv'⟩⟩
      · intro v' hv' hvlt
        rcases List.mem_cons.mp hv' with rfl | hv''
        · have hno : dist.getD (pairedIdx pair n v') none ≠ none := by
            intro h
            exact hguard (by rw [getD_entry_eq' hvlt (some 0), ← getD_entry_eq hvlt]; exact h)
          rw [hstab _ hno]
          exact hno
        · exact hscan v' hv'' hvlt

theorem bfsLoop_cons (conns : List (List Nat)) (pair : List (Option Nat)) (n fuel : Nat)
    (dist : List (Option Nat)) (c : Nat) (rest : List Nat) :
    bfsLoop conns pair n (fuel + 1) dist (c :: rest) =
      if c < n then
        bfsLoop conns pair n fuel (bfsScan pair n c (conns.getD c []) dist rest).1
          (bfsScan pair n c (conns.getD c []) dist rest).2
      else bfsLoop conns pair n fuel dist rest := rfl

/-- Invariant induction for the BFS queue loop.  Given enough fuel and a
well-formed state, the final distance array keeps all finite entries, leaves
receivers unreached, has scanned every finite vertex completely, gives every
positive distance a parent edge, gives distance zero only to unmatched givers,
and keeps all distances bounded by `n + 1`. -/
theorem bfsLoop_spec (conns : List (List Nat)) (pair : List (Option Nat)) (n G : Nat)
    (_hGn : G ≤ n)
    (hc1 : ∀ g, ∀ v ∈ conns.getD g [], G ≤ v ∧ v < n)
    (hcross : ∀ a b, pair.getD a none = some b → b < n ∧ (a < G ↔ ¬ b < G)) :
    ∀ (fuel : Nat) (dist : List (Option Nat)) (queue : List Nat),
      dist.length = n + 1 →
      queue.length + countNone dist ≤ fuel →
      (∀ x ∈ queue, x < n ∧ dist.getD x none ≠ none) →
      (∀ v, G ≤ v → v < n → dist.getD v none = none) →
      (∀ c', c' < n → dist.getD c' none ≠ none → c' ∈ queue ∨
        ∀ v ∈ conns.getD c' [], dist.getD (pairedIdx pair n v) none ≠ none) →
      (∀ w e, dist.getD w none = some (e + 1) → ∃ c' v, c' < n ∧
        dist.getD c' none = some e ∧ v ∈ conns.getD c' [] ∧ pairedIdx pair n v = w) →
      (∀ x, dist.getD x none = some 0 → x < G ∧ pair.getD x none = none) →
      (∀ x e, dist.getD x none = some e → e + countNone dist ≤ n + 1) →
      ∃ D, bfsLoop conns pair n fuel dist queue = D ∧
        D.length = n + 1 ∧
        (∀ x, dist.getD x none ≠ none → D.getD x none = dist.getD x none) ∧
        (∀ v, G ≤ v → v < n → D.getD v none = none) ∧
        (∀ c', c' < n → D.getD c' none ≠ none →
          ∀ v ∈ conns.getD c' [], D.getD (pairedIdx pair n v) none ≠ none) ∧
        (∀ w e, D.getD w none = some (e + 1) → ∃ c' v, c' < n ∧
          D.getD c' none = some e ∧ v ∈ conns.getD c' [] ∧ pairedIdx pair n v = w) ∧
        (∀ x, D.getD x none = some 0 → x < G ∧ pair.getD x none = none) ∧
        (∀ x e, D.getD x none = some e → e ≤ n + 1) := by
  have hpilt : ∀ g v', v' ∈ conns.getD g [] → pairedIdx pair n v' ≤ n := by
    intro g v' hv'
    cases hpv : pair.getD v' none with
    | none => rw [pairedIdx_none hpv]
    | some p =>
      rw [pairedIdx_some hpv]
      have := (hcross v' p hpv).1
      omega
  intro fuel
  induction fuel with
  | zero =>
    intro dist queue hlen hfuel hq hrec hscan hpar hzero hbnd
    have hq0 : queue = [] := by
      cases queue with
      | nil => rfl
      | cons a t => simp at hfuel
    subst hq0
    refine ⟨dist, rfl, hlen, fun _ _ => rfl, hrec, ?_, hpar, hzero, ?_⟩
    · intro c' hc' hd v hv
      rcases hscan c' hc' hd with hmem | hall
      · cases hmem
      · exact hall v hv
    · intro x e hx
      have := hbnd x e hx
      omega
  | succ fuel ih =>
    intro dist queue hlen hfuel hq hrec hscan hpar hzero hbnd
    cases queue with
    | nil =>
      refine ⟨dist, rfl, hlen, fun _ _ => rfl, hrec, ?_, hpar, hzero, ?_⟩
      · intro c' hc' hd v hv
        rcases hscan c' hc' hd with hmem | hall
        · cases hmem
        · exact hall v hv
      · intro x e hx
        have := hbnd x e hx
        omega
    | cons c rest =>
      obtain ⟨hcn, hcfin⟩ := hq c (List.mem_cons_self _ _)
      obtain ⟨dc, hdc⟩ : ∃ dc, dist.getD c none = some dc := by
        cases hdcc : dist.getD c none with
        | none => exact absurd hdcc hcfin
        | some dc => exact ⟨dc, rfl⟩
      obtain ⟨dist', queue', heq, hlen', hstab, hchg, hsub, hmem, hscan', hmeas, hmono, hor⟩ :=
        bfsScan_spec pair n c (conns.getD c []) dist rest dc hdc
      have hlen'' : dist'.length = n + 1 := by rw [hlen']; exact hlen
      have hq' : ∀ x ∈ queue', x < n ∧ dist'.getD x none ≠ none := by
        intro x hx
        rcases hmem x hx with hxr | ⟨hxn, hxlt, hxval, _⟩
        · obtain ⟨h1, h2⟩ := hq x (List.mem_cons_of_mem _ hxr)
          exact ⟨h1, by rw [hstab x h2]; exact h2⟩
        · exact ⟨by omega, by rw [hxval]; simp⟩
      have hrec' : ∀ v, G ≤ v → v < n → dist'.getD v none = none := by
        intro v hvG hvn
        by_cases hch : dist'.getD v none = dist.getD v none
        · rw [hch]; exact hrec v hvG hvn
        · obtain ⟨_, _, ⟨v', hv', hpv'⟩, _⟩ := hchg v hch
          exfalso
          obtain ⟨hvG', hvn'⟩ := hc1 c v' hv'
          cases hpv : pair.getD v' none with
          | none => rw [pairedIdx_none hpv] at hpv'; omega
          | some p =>
            rw [pairedIdx_some hpv] at hpv'
            have := hcross v' p hpv
            omega
      have hscan'' : ∀ c', c' < n → dist'.getD c' none ≠ none → c' ∈ queue' ∨
          ∀ v ∈ conns.getD c' [], dist'.getD (pairedIdx pair n v) none ≠ none := by
        intro c' hc'n hd'
        by_cases hdold : dist.getD c' none ≠ none
        · rcases hscan c' hc'n hdold with hmemq | hall
          · rcases List.mem_cons.mp hmemq with rfl | hrest
            · right
              intro v hv
              have := hpilt _ v hv
              exact hscan' v hv (by rw [hlen]; omega)
            · exact Or.inl (hsub c' hrest)
          · right
            intro v hv
            have hfin := hall v hv
            rw [hstab _ hfin]
            exact hfin
        · push_neg at hdold
          have hch : dist'.getD c' none ≠ dist.getD c' none := by
            rw [hdold]; exact hd'
          obtain ⟨_, _, _, hinq⟩ := hchg c' hch
          exact Or.inl (hinq (by omega))
      have hpar' : ∀ w e, dist'.getD w none = some (e + 1) → ∃ c' v, c' < n ∧
          dist'.getD c' none = some e ∧ v ∈ conns.getD c' [] ∧ pairedIdx pair n v = w := by
        intro w e hw
        by_cases hch : dist'.getD w none = dist.getD w none
        · rw [hch] at hw
          obtain ⟨c'', v, h1, h2, h3, h4⟩ := hpar w e hw
          exact ⟨c'', v, h1, by rw [hstab _ (by rw [h2]; simp)]; exact h2, h3, h4⟩
        · obtain ⟨_, hval, ⟨v, hv, hpv⟩, _⟩ := hchg w hch
          rw [hw] at hval
          cases hval
          exact ⟨c, v, hcn, by rw [hstab _ (by rw [hdc]; simp)]; exact hdc, hv, hpv⟩
      have hzero' : ∀ x, dist'.getD x none = some 0 → x < G ∧ pair.getD x none = none := by
        intro x hx
        by_cases hch : dist'.getD x none = dist.getD x none
        · rw [hch] at hx
          exact hzero x hx
        · obtain ⟨_, hval, _, _⟩ := hchg x hch
          rw [hx] at hval
          cases hval
      have hbnd' : ∀ x e, dist'.getD x none = some e → e + countNone dist' ≤ n + 1 := by
        intro x e hx
        rcases hor with heqd | hlt
        · rw [heqd] at hx ⊢
          exact hbnd x e hx
        · by_cases hch : dist'.getD x none = dist.getD x none
          · rw [hch] at hx
            have := hbnd x e hx
            omega
          · obtain ⟨_, hval, _, _⟩ := hchg x hch
            rw [hx] at hval
            cases hval
            have := hbnd c dc hdc
            omega
      have hfuel' : queue'.length + countNone dist' ≤ fuel := by
        simp only [List.length_cons] at hfuel
        omega
      obtain ⟨D, hD, pack⟩ := ih dist' queue' hlen'' hfuel' hq' hrec' hscan'' hpar' hzero' hbnd'
      refine ⟨D, ?_, pack.1, ?_, pack.2.2.1, pack.2.2.2.1, pack.2.2.2.2.1,
        pack.2.2.2.2.2.1, pack.2.2.2.2.2.2⟩
      · rw [bfsLoop_cons, if_pos hcn, heq]
        exact hD
      · intro x hx
        have hs := hstab x hx
        rw [pack.2.1 x (by rw [hs]; exact hx), hs]

theorem countNone_set_some_le (l : List (Option Nat)) (i x : Nat) :
    countNone (l.set i (some x)) ≤ countNone l := by
  by_cases hi : i < l.length
  · rw [countNone, countNone, List.countP_set _ _ _ _ hi]
    simp
  · rw [List.set_eq_of_length_le (by omega)]

/-- Specification of the initialisation loop of `initializeSearchLayer`:
unmatched givers among the scanned indices get distance `0` and are enqueued;
nothing else changes. -/
theorem initFold_spec (pair : List (Option Nat)) :
    ∀ (ps : List Nat) (d0 : List (Option Nat)) (q0 : List Nat),
      ∃ d' q', ps.foldl (fun s p =>
          if pair.getD p none = none then (s.1.set p (some 0), s.2 ++ [p]) else s)
          (d0, q0) = (d', q') ∧
        d'.length = d0.length ∧
        (∀ x, x ∉ ps → d'.getD x none = d0.getD x none) ∧
        (∀ x, d'.getD x none ≠ d0.getD x none →
          d'.getD x none = some 0 ∧ pair.getD x none = none ∧ x ∈ ps ∧ x < d0.length) ∧
        (∀ p ∈ ps, p < d0.length → pair.getD p none = none → d'.getD p none = some 0) ∧
        (∀ p ∈ ps, pair.getD p none = none → p ∈ q') ∧
        (∀ x, d0.getD x none = some 0 → d'.getD x none = some 0) ∧
        (∀ x ∈ q0, x ∈ q') ∧
        (∀ x ∈ q', x ∈ q0 ∨ (x ∈ ps ∧ pair.getD x none = none)) ∧
        q'.length ≤ q0.length + ps.length ∧
        countNone d' ≤ countNone d0 := by
  intro ps
  induction ps with
  | nil =>
    intro d0 q0
    exact ⟨d0, q0, rfl, rfl, fun _ _ => rfl, fun x hx => absurd rfl hx,
      fun p hp => absurd hp (List.not_mem_nil p), fun p hp => absurd hp (List.not_mem_nil p),
      fun _ h => h, fun _ h => h, fun x hx => Or.inl hx, by omega, le_refl _⟩
  | cons p ps' ih =>
    intro d0 q0
    rw [List.foldl_cons]
    by_cases hup : pair.getD p none = none
    · rw [if_pos hup]
      obtain ⟨d', q', heq, hlen, huntouched, hchg, hset, henq, hpersist, hsub, hmem,
        hqlen, hcnt⟩ := ih (d0.set p (some 0)) (q0 ++ [p])
      have hd1p : p < d0.length → (d0.set p (some 0)).getD p none = some 0 :=
        fun h => getD_set_self _ _ _ _ h
      have hd1o : ∀ x, x ≠ p → (d0.set p (some 0)).getD x none = d0.getD x none :=
        fun x hx => getD_set_ne _ _ _ (fun h => hx h.symm)
      refine ⟨d', q', heq, by rw [hlen, List.length_set], ?_, ?_, ?_, ?_, ?_, ?_, ?_, ?_, ?_⟩
      · intro x hx
        have hxp : x ≠ p := fun h => hx (h ▸ List.mem_cons_self _ _)
        rw [huntouched x (fun h => hx (List.mem_cons_of_mem _ h)), hd1o x hxp]
      · intro x hx
        by_cases hxp : x = p
        · subst hxp
          by_cases hplen : x < d0.length
          · refine ⟨?_, hup, List.mem_cons_self _ _, hplen⟩
            exact hpersist x (hd1p hplen)
          · exfalso
            apply hx
            rw [List.set_eq_of_length_le (by omega)] at huntouched hchg
            by_cases hxin : x ∈ ps'
            · by_cases hch : d'.getD x none = d0.getD x none
              · exact hch
              · obtain ⟨_, _, _, hlt⟩ := hchg x hch
                omega
            · exact huntouched x hxin
        · by_cases hch : d'.getD x none = (d0.set p (some 0)).getD x none
          · rw [hch, hd1o x hxp] at hx
            exact absurd rfl hx
          · obtain ⟨h1, h2, h3, h4⟩ := hchg x hch
            exact ⟨h1, h2, List.mem_cons_of_mem _ h3, by rw [List.length_set] at h4; exact h4⟩
      · intro q hq hqlen' hqun
        rcases List.mem_cons.mp hq with rfl | hq'
        · exact hpersist q (hd1p hqlen')
        · exact hset q hq' (by rw [List.length_set]; exact hqlen') hqun
      · intro q hq hqun
        rcases List.mem_cons.mp hq with rfl | hq'
        · exact hsub q (List.mem_append_right _ (List.mem_singleton_self _))
        · exact henq q hq' hqun
      · intro x hx
        by_cases hxp : x = p
        · subst hxp
          by_cases hplen : x < d0.length
          · exact hpersist x (hd1p hplen)
          · rw [List.set_eq_of_length_le (by omega)] at hpersist
            exact hpersist x hx
        · exact hpersist x (by rw [hd1o x hxp]; exact hx)
      · intro x hx
        exact hsub x (List.mem_append_left _ hx)
      · intro x hx
        rcases hmem x hx with hxq | ⟨hxin, hxun⟩
        · rcases List.mem_append.mp hxq with h | h
          · exact Or.inl h
          · exact Or.inr ⟨(List.mem_singleton.mp h) ▸ List.mem_cons_self _ _,
              (List.mem_singleton.mp h) ▸ hup⟩
        · exact Or.inr ⟨List.mem_cons_of_mem _ hxin, hxun⟩
      · rw [List.length_append, List.length_singleton] at hqlen
        simp only [List.length_cons]
        omega
      · exact le_trans hcnt (countNone_set_some_le _ _ _)
    · rw [if_neg hup]
      obtain ⟨d', q', heq, hlen, huntouched, hchg, hset, henq, hpersist, hsub, hmem,
        hqlen, hcnt⟩ := ih d0 q0
      refine ⟨d', q', heq, hlen, ?_, ?_, ?_, ?_, hpersist, hsub, ?_, ?_, hcnt⟩
      · intro x hx
        exact huntouched x (fun h => hx (List.mem_cons_of_mem _ h))
      · intro x hx
        obtain ⟨h1, h2, h3, h4⟩ := hchg x hx
        exact ⟨h1, h2, List.mem_cons_of_mem _ h3, h4⟩
      · intro q hq hqlen' hqun
        rcases List.mem_cons.mp hq with rfl | hq'
        · exact absurd hqun hup
        · exact hset q hq' hqlen' hqun
      · intro q hq hqun
        rcases List.mem_cons.mp hq with rfl | hq'
        · exact absurd hqun hup
        · exact henq q hq' hqun
      · intro x hx
        rcases hmem x hx with h | ⟨h1, h2⟩
        · exact Or.inl h
        · exact Or.inr ⟨List.mem_cons_of_mem _ h1, h2⟩
      · simp only [List.length_cons]
        omega

/-- Combined specification of `initializeSearchLayer`. -/
theorem initializeSearchLayer_spec (conns : List (List Nat)) (pair : List (Option Nat))
    (n G : Nat) (hGn : G ≤ n)
    (hc1 : ∀ g, ∀ v ∈ conns.getD g [], G ≤ v ∧ v < n)
    (hcross : ∀ a b, pair.getD a none = some b → b < n ∧ (a < G ↔ ¬ b < G)) :
    ∃ D, initializeSearchLayer conns pair G n = D ∧
      D.length = n + 1 ∧
      (∀ v, G ≤ v → v < n → D.getD v none = none) ∧
      (∀ c', c' < n → D.getD c' none ≠ none →
        ∀ v ∈ conns.getD c' [], D.getD (pairedIdx pair n v) none ≠ none) ∧
      (∀ w e, D.getD w none = some (e + 1) → ∃ c' v, c' < n ∧
        D.getD c' none = some e ∧ v ∈ conns.getD c' [] ∧ pairedIdx pair n v = w) ∧
      (∀ x, D.getD x none = some 0 → x < G ∧ pair.getD x none = none) ∧
      (∀ x e, D.getD x none = some e → e ≤ n + 1) ∧
      (∀ g, g < G → pair.getD g none = none → D.getD g none = some 0) := by
  obtain ⟨d', q', heq, hlen, huntouched, hchg, hset, henq, _, _, hmem, hqlen, hcnt⟩ :=
    initFold_spec pair (List.range G) (List.replicate (n + 1) none) []
  have hd0 : ∀ x, (List.replicate (n + 1) (none : Option Nat)).getD x none = none :=
    fun x => getD_replicate_none _ _
  have hlen' : d'.length = n + 1 := by rw [hlen, List.length_replicate]
  have hall : ∀ x, d'.getD x none ≠ none →
      d'.getD x none = some 0 ∧ pair.getD x none = none ∧ x ∈ List.range G := by
    intro x hx
    have hch : d'.getD x none ≠ (List.replicate (n + 1) (none : Option Nat)).getD x none :=
      by rw [hd0]; exact hx
    obtain ⟨h1, h2, h3, _⟩ := hchg x hch
    exact ⟨h1, h2, h3⟩
  have hcntd : countNone d' ≤ n + 1 := by
    have h2 := countNone_le_length (List.replicate (n + 1) (none : Option Nat))
    rw [List.length_replicate] at h2
    exact le_trans hcnt h2
  obtain ⟨D, hD, k0, k1, k2, k3, k4, k5, k6⟩ :=
    bfsLoop_spec conns pair n G hGn hc1 hcross (G + (n + 1)) d' q' hlen'
      (by
        simp only [List.length_range, List.length_nil] at hqlen
        omega)
      (by
        intro x hx
        rcases hmem x hx with h | ⟨h1, h2⟩
        · cases h
        · have hxG := List.mem_range.mp h1
          refine ⟨by omega, ?_⟩
          rw [hset x h1 (by omega) h2]
          simp)
      (by
        intro v hvG hvn
        rw [huntouched v (by intro h; have := List.mem_range.mp h; omega), hd0])
      (by
        intro c' hc' hd
        obtain ⟨_, h2, h3⟩ := hall c' hd
        exact Or.inl (henq c' h3 h2))
      (by
        intro w e hw
        obtain ⟨h1, _, _⟩ := hall w (by rw [hw]; simp)
        rw [hw] at h1
        cases h1)
      (by
        intro x hx
        obtain ⟨_, h2, h3⟩ := hall x (by rw [hx]; simp)
        exact ⟨List.mem_range.mp h3, h2⟩)
      (by
        intro x e hx
        obtain ⟨h1, _, _⟩ := hall x (by rw [hx]; simp)
        rw [hx] at h1
        cases h1
        omega)
  refine ⟨D, ?_, k0, k2, k3, k4, k5, k6, ?_⟩
  · have h2 : initializeSearchLayer conns pair G n =
        bfsLoop conns pair n (G + (n + 1)) d' q' := by
      unfold initializeSearchLayer
      rw [heq]
    rw [h2]
    exact hD
  · intro g hg hgu
    have hd'g : d'.getD g none = some 0 :=
      hset g (List.mem_range.mpr hg) (by omega) hgu
    rw [k1 g (by rw [hd'g]; simp), hd'g]

/-! ### From a successful BFS to a successful DFS -/

theorem pathTo_snoc (conns : List (List Nat)) (dist pair : List (Option Nat)) (n : Nat) :
    ∀ (vs : List Nat) (u w v : Nat), PathTo conns dist pair n u vs w →
      v ∈ conns.getD w [] →
      dist.getD (pairedIdx pair n v) none = (dist.getD w none).map (· + 1) →
      PathTo conns dist pair n u (vs ++ [v]) (pairedIdx pair n v) := by
  intro vs
  induction vs with
  | nil =>
    intro u w v hp hv hd
    have hu : u = w := hp
    subst hu
    exact ⟨hv, hd, rfl⟩
  | cons v₀ vs ih =>
    intro u w v hp hv hd
    obtain ⟨h1, h2, h3⟩ := hp
    exact ⟨h1, h2, ih _ _ _ h3 hv hd⟩

/-- Every vertex at finite BFS distance `e` is reached from an unmatched giver
by a layered walk of length `e`. -/
theorem bfs_reach (conns : List (List Nat)) (pair D : List (Option Nat)) (n G : Nat)
    (hpar : ∀ w e, D.getD w none = some (e + 1) → ∃ c' v, c' < n ∧
      D.getD c' none = some e ∧ v ∈ conns.getD c' [] ∧ pairedIdx pair n v = w)
    (hzero : ∀ x, D.getD x none = some 0 → x < G ∧ pair.getD x none = none) :
    ∀ e w, D.getD w none = some e → ∃ g vs, g < G ∧ pair.getD g none = none ∧
      PathTo conns D pair n g vs w ∧ vs.length = e := by
  intro e
  induction e with
  | zero =>
    intro w hw
    obtain ⟨hg, hun⟩ := hzero w hw
    exact ⟨w, [], hg, hun, rfl, rfl⟩
  | succ e ih =>
    intro w hw
    obtain ⟨c', v, hc'n, hc'd, hv, hpv⟩ := hpar w e hw
    obtain ⟨g, vs, hg, hun, hpath, hlenvs⟩ := ih c' hc'd
    refine ⟨g, vs ++ [v], hg, hun, ?_, by simp [hlenvs]⟩
    have hstep := pathTo_snoc conns D pair n vs g c' v hpath hv
      (by rw [hpv, hw, hc'd]; rfl)
    rw [hpv] at hstep
    exact hstep

/-- A layered walk ending at the sentinel is a `SentinelPath`. -/
theorem pathTo_sentinelPath (conns : List (List Nat)) (dist pair : List (Option Nat))
    (n : Nat) (hnE : conns.getD n [] = []) :
    ∀ (vs : List Nat) (u : Nat), u ≠ n → PathTo conns dist pair n u vs n →
      SentinelPath conns dist pair n u vs := by
  intro vs
  induction vs with
  | nil =>
    intro u hu hp
    exact absurd (show u = n from hp) hu
  | cons v vs ih =>
    intro u hu hp
    obtain ⟨h1, h2, h3⟩ := hp
    by_cases hwn : pairedIdx pair n v = n
    · cases vs with
      | nil => exact ⟨h1, h2, Or.inl ⟨hwn, rfl⟩⟩
      | cons v' vs' =>
        obtain ⟨h4, _, _⟩ := h3
        rw [hwn, hnE] at h4
        exact absurd h4 (List.not_mem_nil v')
    · exact ⟨h1, h2, Or.inr ⟨hwn, ih _ hwn h3⟩⟩

theorem attemptEdges_fail_frame (dist : List (Option Nat)) (n u : Nat)
    (tryPair : Nat → List (Option Nat) → Bool × List (Option Nat))
    (htry : ∀ w pair, (tryPair w pair).1 = false → (tryPair w pair).2 = pair) :
    ∀ (es : List Nat) (pair : List (Option Nat)),
      (attemptEdges dist n u tryPair es pair).1 = false →
      (attemptEdges dist n u tryPair es pair).2 = pair := by
  intro es
  induction es with
  | nil => intro pair _; rfl
  | cons v vs ih =>
    intro pair hfalse
    rw [attemptEdges_cons] at hfalse ⊢
    by_cases hg : dist.getD (pairedIdx pair n v) none = (dist.getD u none).map (· + 1)
    · rw [if_pos hg] at hfalse ⊢
      rcases hres : tryPair (pairedIdx pair n v) pair with ⟨found, p₁⟩
      rw [hres] at hfalse
      cases found with
      | true =>
        have hcontra : (true : Bool) = false := hfalse
        cases hcontra
      | false =>
        have hp₁ : p₁ = pair := by
          have h2 := htry (pairedIdx pair n v) pair (by rw [hres])
          rw [hres] at h2
          exact h2
        have hf : (attemptEdges dist n u tryPair vs p₁).1 = false := hfalse
        show (attemptEdges dist n u tryPair vs p₁).2 = pair
        rw [hp₁] at hf ⊢
        exact ih pair hf
    · rw [if_neg hg] at hfalse ⊢
      exact ih pair hfalse

theorem attempt_fail_frame (conns : List (List Nat)) (dist : List (Option Nat)) (n : Nat) :
    ∀ (fuel u : Nat) (pair : List (Option Nat)),
      (attemptAssignment conns dist n fuel u pair).1 = false →
      (attemptAssignment conns dist n fuel u pair).2 = pair := by
  intro fuel
  induction fuel with
  | zero => intro u pair _; rfl
  | succ fuel ih =>
    intro u pair hfalse
    by_cases hun : u = n
    · rw [show attemptAssignment conns dist n (fuel + 1) u pair = (true, pair) by
        simp [attemptAssignment, hun]] at hfalse
      cases hfalse
    · rw [show attemptAssignment conns dist n (fuel + 1) u pair =
        attemptEdges dist n u (attemptAssignment conns dist n fuel) (conns.getD u []) pair by
        simp [attemptAssignment, hun]] at hfalse ⊢
      exact attemptEdges_fail_frame dist n u _ (fun w pair' => ih w pair') _ pair hfalse

/-- Along a `SentinelPath` with enough fuel the DFS succeeds. -/
theorem dfs_success (conns : List (List Nat)) (dist : List (Option Nat)) (n : Nat) :
    ∀ (vs : List Nat) (u : Nat) (pair : List (Option Nat)) (fuel : Nat),
      u ≠ n → SentinelPath conns dist pair n u vs → vs.length < fuel →
      (attemptAssignment conns dist n fuel u pair).1 = true := by
  intro vs
  induction vs with
  | nil =>
    intro u pair fuel _ hsp _
    exact (show False from hsp).elim
  | cons v vs ih =>
    intro u pair fuel hun hsp hfuel
    obtain ⟨hv, hguard, hrest⟩ := hsp
    cases fuel with
    | zero => omega
    | succ fuel =>
      rw [show attemptAssignment conns dist n (fuel + 1) u pair =
        attemptEdges dist n u (attemptAssignment conns dist n fuel) (conns.getD u []) pair by
        simp [attemptAssignment, hun]]
      have hlvs : vs.length < fuel := by
        simp only [List.length_cons] at hfuel
        omega
      have hrec : (attemptAssignment conns dist n fuel (pairedIdx pair n v) pair).1 = true := by
        rcases hrest with ⟨hwn, hvs⟩ | ⟨hwn, hsp'⟩
        · subst hvs
          cases fuel with
          | zero => omega
          | succ f => simp [attemptAssignment, hwn]
        · exact ih (pairedIdx pair n v) pair fuel hwn hsp' hlvs
      have hedges : ∀ es, v ∈ es →
          (attemptEdges dist n u (attemptAssignment conns dist n fuel) es pair).1 = true := by
        intro es
        induction es with
        | nil => intro h; cases h
        | cons e es' ihe =>
          intro hve
          rw [attemptEdges_cons]
          by_cases hg : dist.getD (pairedIdx pair n e) none = (dist.getD u none).map (· + 1)
          · rw [if_pos hg]
            rcases hres : attemptAssignment conns dist n fuel (pairedIdx pair n e) pair
              with ⟨found, p₁⟩
            cases found with
            | true => rfl
            | false =>
              have hp₁ : p₁ = pair := by
                have := attempt_fail_frame conns dist n fuel (pairedIdx pair n e) pair
                  (by rw [hres])
                rw [hres] at this
                exact this
              rw [hp₁]
              rcases List.mem_cons.mp hve with rfl | hv'
              · rw [hres] at hrec
                cases hrec
              · exact ihe hv'
          · rw [if_neg hg]
            rcases List.mem_cons.mp hve with rfl | hv'
            · exact absurd hguard hg
            · exact ihe hv'
      exact hedges _ hv

/-! ### The outer Hopcroft–Karp loop -/

theorem matchedCount_le (pair : List (Option Nat)) (G : Nat) :
    matchedCount pair G ≤ G := by
  rw [matchedCount]
  exact le_trans (List.countP_le_length _) (le_of_eq (List.length_range G))

theorem hkLoop_succ_eq (conns : List (List Nat)) (n G fuel : Nat)
    (pair : List (Option Nat)) :
    hkLoop conns n G (fuel + 1) pair =
      if bfsSuccess (initializeSearchLayer conns pair G n) n then
        hkLoop conns n G fuel
          (augmentPass conns (initializeSearchLayer conns pair G n) n G (n + 2) pair)
      else (pair, initializeSearchLayer conns pair G n) := rfl

/-- One successful BFS phase strictly increases the matched count: the layered
path found by the BFS guarantees that some DFS in the sweep succeeds. -/
theorem phase_progress (conns : List (List Nat)) (n G : Nat) (hGn : G ≤ n)
    (hc1 : ∀ g, ∀ v ∈ conns.getD g [], G ≤ v ∧ v < n)
    (hcE : ∀ g, G ≤ g → conns.getD g [] = [])
    (pair : List (Option Nat)) (hgp : GoodPair pair G n)
    (hbs : bfsSuccess (initializeSearchLayer conns pair G n) n = true) :
    GoodPair (augmentPass conns (initializeSearchLayer conns pair G n) n G (n + 2) pair) G n ∧
    (∀ a, pair.getD a none ≠ none →
      (augmentPass conns (initializeSearchLayer conns pair G n) n G (n + 2) pair).getD a none
        ≠ none) ∧
    (∀ g x, g < G →
      (augmentPass conns (initializeSearchLayer conns pair G n) n G (n + 2) pair).getD g none
        = some x → x ∈ conns.getD g [] ∨ pair.getD g none = some x) ∧
    matchedCount pair G <
      matchedCount (augmentPass conns (initializeSearchLayer conns pair G n) n G (n + 2) pair)
        G := by
  obtain ⟨hplen, hcross, hsym⟩ := hgp
  obtain ⟨D, hD, k0, k1, k2, k3, k4, k5, k6⟩ :=
    initializeSearchLayer_spec conns pair n G hGn hc1 hcross
  rw [hD] at hbs ⊢
  have hrd : ∀ x, G ≤ x → x < n → D.getD x none = none := k1
  obtain ⟨c1, c2, c3, c4, c5⟩ := augment_fold_spec conns D n G (n + 2) hGn hc1 hrd
    (List.range G) pair (fun u hu => List.mem_range.mp hu) ⟨hplen, hcross, hsym⟩ k6
  refine ⟨c1, c2, c3, ?_⟩
  rcases c5 with hlt | ⟨_, hall⟩
  · exact hlt
  · exfalso
    rw [bfsSuccess] at hbs
    obtain ⟨k, hk⟩ : ∃ k, D.getD n none = some k := by
      cases hDn : D.getD n none with
      | none => rw [hDn] at hbs; cases hbs
      | some k => exact ⟨k, rfl⟩
    obtain ⟨g, vs, hg, hun, hpath, hlenvs⟩ := bfs_reach conns pair D n G k3 k4 k n hk
    have hgn : g ≠ n := by omega
    have hsp : SentinelPath conns D pair n g vs :=
      pathTo_sentinelPath conns D pair n (hcE n hGn) vs g hgn hpath
    have hklt : k ≤ n + 1 := k5 n k hk
    have hsucc := dfs_success conns D n vs g pair (n + 2) hgn hsp (by omega)
    have hfail := hall g (List.mem_range.mpr hg) hun
    rw [hfail] at hsucc
    cases hsucc

/-- Full specification of the `while` loop: the invariants carry over, the
returned distance array is the BFS of the returned state, and with fuel
exceeding the number of unmatched givers the loop genuinely reaches a failed
BFS and the result no longer depends on the fuel. -/
theorem hkLoop_spec (conns : List (List Nat)) (n G : Nat) (hGn : G ≤ n)
    (hc1 : ∀ g, ∀ v ∈ conns.getD g [], G ≤ v ∧ v < n)
    (hcE : ∀ g, G ≤ g → conns.getD g [] = []) :
    ∀ (fuel : Nat) (pair : List (Option Nat)), GoodPair pair G n →
      ∃ P Dd, hkLoop conns n G fuel pair = (P, Dd) ∧
        GoodPair P G n ∧
        (∀ a, pair.getD a none ≠ none → P.getD a none ≠ none) ∧
        (∀ g x, g < G → P.getD g none = some x →
          x ∈ conns.getD g [] ∨ pair.getD g none = some x) ∧
        matchedCount pair G ≤ matchedCount P G ∧
        Dd = initializeSearchLayer conns P G n ∧
        (G < fuel + matchedCount pair G → bfsSuccess Dd n = false) ∧
        (∀ fuel', G < fuel' + matchedCount pair G → G < fuel + matchedCount pair G →
          hkLoop conns n G fuel' pair = hkLoop conns n G fuel pair) := by
  intro fuel
  induction fuel with
  | zero =>
    intro pair hgp
    refine ⟨pair, initializeSearchLayer conns pair G n, rfl, hgp, fun _ h => h,
      fun _ _ _ h => Or.inr h, le_refl _, rfl, ?_, ?_⟩
    · intro hcount
      have := matchedCount_le pair G
      omega
    · intro fuel' h1 h2
      have := matchedCount_le pair G
      omega
  | succ fuel ih =>
    intro pair hgp
    cases hbs : bfsSuccess (initializeSearchLayer conns pair G n) n with
    | false =>
      refine ⟨pair, initializeSearchLayer conns pair G n, ?_, hgp, fun _ h => h,
        fun _ _ _ h => Or.inr h, le_refl _, rfl, fun _ => hbs, ?_⟩
      · rw [hkLoop_succ_eq, hbs]
        simp
      · intro fuel' h1 _
        cases fuel' with
        | zero =>
          have := matchedCount_le pair G
          omega
        | succ fuel'' =>
          rw [hkLoop_succ_eq, hbs, hkLoop_succ_eq, hbs]
          exact rfl
    | true =>
      obtain ⟨hgp', hstab, hedge, hmc⟩ := phase_progress conns n G hGn hc1 hcE pair hgp hbs
      obtain ⟨P, Dd, hPD, c1, c2, c3, c4, c5, c6, c7⟩ :=
        ih (augmentPass conns (initializeSearchLayer conns pair G n) n G (n + 2) pair) hgp'
      refine ⟨P, Dd, ?_, c1, ?_, ?_, by omega, c5, ?_, ?_⟩
      · rw [hkLoop_succ_eq, hbs, if_pos rfl]
        exact hPD
      · intro a ha
        exact c2 a (hstab a ha)
      · intro g x hg hx
        rcases c3 g x hg hx with h | h
        · exact Or.inl h
        · rcases hedge g x hg h with h' | h'
          · exact Or.inl h'
          · exact Or.inr h'
      · intro hcount
        exact c6 (by omega)
      · intro fuel' h1 h2
        cases fuel' with
        | zero =>
          have := matchedCount_le pair G
          omega
        | succ fuel'' =>
          rw [hkLoop_succ_eq, hbs, hkLoop_succ_eq, hbs, if_pos rfl, if_pos rfl]
          exact c7 fuel'' (by omega) (by omega)

/-! ### Registry-built matchers -/

theorem newMatcher_valid (givers receivers : List Int) :
    ValidMatcher (newMatcher givers receivers) := by
  refine ⟨by simp [newMatcher], by simp [newMatcher], ?_, ?_⟩
  · intro g v hv
    rw [show (newMatcher givers receivers).conns =
      List.replicate (givers.length + receivers.length) [] from rfl] at hv
    rcases Nat.lt_or_ge g (givers.length + receivers.length) with h | h
    · rw [List.getD_eq_getElem?_getD, List.getElem?_replicate, if_pos h] at hv
      cases hv
    · rw [List.getD_eq_getElem?_getD, List.getElem?_replicate, if_neg (by omega)] at hv
      cases hv
  · intro g _
    rw [show (newMatcher givers receivers).conns =
      List.replicate (givers.length + receivers.length) [] from rfl]
    rw [List.getD_eq_getElem?_getD, List.getElem?_replicate]
    split <;> rfl

theorem addSecretSantaPairing_preserves_valid (m m' : Matcher) (g r : Int)
    (hv : ValidMatcher m) (h : addSecretSantaPairing m g r = .ok m') :
    ValidMatcher m' := by
  obtain ⟨hlen, hpair, hrange, hempty⟩ := hv
  unfold addSecretSantaPairing at h
  split at h
  · cases h
  · rename_i hcond
    injection h with h
    subst h
    have hg0 : (0 : Int) ≤ g := by omega
    have hgG : g < (m.givers.length : Int) := by omega
    have hrR : r < (m.receivers.length : Int) := by omega
    have hr0 : (0 : Int) ≤ r := by omega
    unfold ValidMatcher
    dsimp only
    refine ⟨by simp [List.length_set, hlen], hpair, ?_, ?_⟩
    · intro g' v hv'
      by_cases hgg : g' = g.toNat
      · rw [hgg] at hv'
        rw [getD_set_self _ _ _ _ (by rw [hlen]; omega)] at hv'
        rcases List.mem_append.mp hv' with h' | h'
        · exact hrange g.toNat v h'
        · rw [List.mem_singleton.mp h']
          omega
      · rw [getD_set_ne _ _ _ (fun h' => hgg h'.symm)] at hv'
        exact hrange g' v hv'
    · intro g' hg'
      have hgg : g' ≠ g.toNat := by omega
      rw [getD_set_ne _ _ _ (fun h' => hgg h'.symm)]
      exact hempty g' hg'

theorem shuffles_length {a b : List (List Nat)} (h : Shuffles a b) :
    b.length = a.length :=
  (List.Forall₂.length_eq h).symm

theorem shuffles_getD {a b : List (List Nat)} (h : Shuffles a b) :
    ∀ i, (a.getD i []).Perm (b.getD i []) := by
  induction h with
  | nil => intro i; rfl
  | cons hhead htail ih =>
    intro i
    cases i with
    | zero => exact hhead
    | succ i => exact ih i

theorem shuffles_mem {a b : List (List Nat)} (h : Shuffles a b) (i v : Nat) :
    v ∈ a.getD i [] ↔ v ∈ b.getD i [] :=
  (shuffles_getD h i).mem_iff

/-- The initial match state is well formed. -/
theorem goodPair_replicate (G n : Nat) :
    GoodPair (List.replicate n (none : Option Nat)) G n := by
  have hz : ∀ x, (List.replicate n (none : Option Nat)).getD x none = none := by
    intro x
    rw [List.getD_eq_getElem?_getD, List.getElem?_replicate]
    split <;> rfl
  refine ⟨List.length_replicate _ _, ?_, ?_⟩
  · intro u v hu
    rw [hz u] at hu
    cases hu
  · intro u v hu
    rw [hz u] at hu
    cases hu

/-- Decomposition of `generateSecretSantaPairs` into the solve and the
extraction. -/
theorem generate_eq (m : Matcher) (shuffled : List (List Nat)) :
    generateSecretSantaPairs m shuffled =
      (extractPairs m
        (hkLoop shuffled shuffled.length m.givers.length (m.givers.length + 1) m.pair).1,
       { m with conns := shuffled,
                pair := (hkLoop shuffled shuffled.length m.givers.length
                  (m.givers.length + 1) m.pair).1,
                searchDistance := (hkLoop shuffled shuffled.length m.givers.length
                  (m.givers.length + 1) m.pair).2 }) := rfl

/-- Core facts about a `generateSecretSantaPairs` call on a registry-built
matcher, for any behaviour of the shuffle: the final match state is well
formed, every giver link follows a registered edge, and the loop stopped on a
failed BFS whose distance array is the stored one. -/
theorem generate_core (m : Matcher) (shuffled : List (List Nat))
    (hv : ValidMatcher m) (hs : Shuffles m.conns shuffled) :
    ∃ P Dd,
      hkLoop shuffled shuffled.length m.givers.length (m.givers.length + 1) m.pair
        = (P, Dd) ∧
      generateSecretSantaPairs m shuffled =
        (extractPairs m P,
         { m with conns := shuffled, pair := P, searchDistance := Dd }) ∧
      GoodPair P m.givers.length shuffled.length ∧
      (∀ g x, g < m.givers.length → P.getD g none = some x → x ∈ m.conns.getD g []) ∧
      matchedCount m.pair m.givers.length ≤ matchedCount P m.givers.length ∧
      Dd = initializeSearchLayer shuffled P m.givers.length shuffled.length ∧
      bfsSuccess Dd shuffled.length = false := by
  obtain ⟨hlen, hpair, hrange, hempty⟩ := hv
  have hn : shuffled.length = m.givers.length + m.receivers.length := by
    rw [shuffles_length hs, hlen]
  have hGn : m.givers.length ≤ shuffled.length := by omega
  have hc1' : ∀ g, ∀ v ∈ shuffled.getD g [],
      m.givers.length ≤ v ∧ v < shuffled.length := by
    intro g v hv'
    have := hrange g v ((shuffles_mem hs g v).mpr hv')
    omega
  have hcE' : ∀ g, m.givers.length ≤ g → shuffled.getD g [] = [] := by
    intro g hg
    have hperm := shuffles_getD hs g
    rw [hempty g hg] at hperm
    exact List.perm_nil.mp hperm.symm
  have hgp0 : GoodPair m.pair m.givers.length shuffled.length := by
    rw [hpair, ← hn]
    exact goodPair_replicate _ _
  obtain ⟨P, Dd, hPD, c1, c2, c3, c4, c5, c6, _⟩ :=
    hkLoop_spec shuffled shuffled.length m.givers.length hGn hc1' hcE'
      (m.givers.length + 1) m.pair hgp0
  refine ⟨P, Dd, hPD, ?_, c1, ?_, c4, c5, c6 (by
    have := matchedCount_le m.pair m.givers.length
    omega)⟩
  · rw [generate_eq, hPD]
  · intro g x hg hx
    rcases c3 g x hg hx with h | h
    · exact (shuffles_mem hs g x).mpr h
    · rw [hpair] at h
      rw [getD_replicate_none] at h
      cases h

/-! ### Maximality of the final matching (König-style argument) -/

theorem matchedCount_eq_card (P : List (Option Nat)) (G : Nat) :
    matchedCount P G =
      ((Finset.range G).filter (fun g => (P.getD g none).isSome = true)).card := by
  induction G with
  | zero => simp [matchedCount]
  | succ G ih =>
    rw [matchedCount, List.range_succ, List.countP_append, ← matchedCount, ih,
      Finset.range_succ, Finset.filter_insert]
    by_cases hp : (P.getD G none).isSome = true
    · rw [if_pos hp, Finset.card_insert_of_not_mem (fun hmem => by simp at hmem)]
      rw [List.countP_cons, List.countP_nil]
      have hb : (P[G]?.getD none).isSome = true := by
        rw [← List.getD_eq_getElem?_getD]
        exact hp
      simp [hb]
    · rw [if_neg hp]
      rw [List.countP_cons, List.countP_nil]
      have hb : (P[G]?.getD none).isSome = false := by
        rw [← List.getD_eq_getElem?_getD]
        cases h : P.getD G none with
        | none => rfl
        | some y => exact absurd (by rw [h]; rfl) hp
      simp [hb]

/-- If the final BFS failed, the current matching is maximum: any matching of
the registered graph has at most `matchedCount` edges. -/
theorem max_matching (conns : List (List Nat)) (n G : Nat) (hGn : G ≤ n)
    (hc1 : ∀ g, ∀ v ∈ conns.getD g [], G ≤ v ∧ v < n)
    (P : List (Option Nat)) (hgp : GoodPair P G n)
    (hbs : bfsSuccess (initializeSearchLayer conns P G n) n = false)
    (M : Finset (Nat × Nat)) (hM : IsMatching conns G M) :
    M.card ≤ matchedCount P G := by
  classical
  obtain ⟨hplen, hcross, hsym⟩ := hgp
  obtain ⟨D, hD, k0, k1, k2, k3, k4, k5, k6⟩ :=
    initializeSearchLayer_spec conns P n G hGn hc1 hcross
  rw [hD] at hbs
  have hDn : D.getD n none = none := by
    rw [bfsSuccess] at hbs
    cases h : D.getD n none with
    | none => rfl
    | some k => rw [h] at hbs; cases hbs
  obtain ⟨hMedge, hMgiv, hMrec⟩ := hM
  set CL := (Finset.range G).filter (fun g => D.getD g none = none) with hCL
  set CR := (Finset.Ico G n).filter
    (fun v => ∃ g', P.getD v none = some g' ∧ D.getD g' none ≠ none) with hCR
  have hM_to_C : M.card ≤ (CL ∪ CR).card := by
    apply Finset.card_le_card_of_injOn (fun p => if D.getD p.1 none = none then p.1 else p.2)
    · intro p hp
      obtain ⟨hp1, hp2⟩ := hMedge p hp
      by_cases hDg : D.getD p.1 none = none
      · rw [if_pos hDg]
        exact Finset.mem_union_left _
          (Finset.mem_filter.mpr ⟨Finset.mem_range.mpr hp1, hDg⟩)
      · rw [if_neg hDg]
        rcases hcover : P.getD p.2 none with _ | g'
        · exfalso
          have hfin := k2 p.1 (by omega) hDg p.2 hp2
          rw [pairedIdx_none hcover] at hfin
          exact hfin hDn
        · have hfin := k2 p.1 (by omega) hDg p.2 hp2
          rw [pairedIdx_some hcover] at hfin
          obtain ⟨hvG, hvn⟩ := hc1 p.1 p.2 hp2
          exact Finset.mem_union_right _
            (Finset.mem_filter.mpr ⟨Finset.mem_Ico.mpr ⟨hvG, hvn⟩, g', hcover, hfin⟩)
    · intro p hp q hq hpq
      simp only at hpq
      by_cases hDp : D.getD p.1 none = none <;> by_cases hDq : D.getD q.1 none = none
      · rw [if_pos hDp, if_pos hDq] at hpq
        exact hMgiv p hp q hq hpq
      · rw [if_pos hDp, if_neg hDq] at hpq
        exfalso
        have h1 := (hc1 q.1 q.2 (hMedge q hq).2).1
        have h2 := (hMedge p hp).1
        omega
      · rw [if_neg hDp, if_pos hDq] at hpq
        exfalso
        have h1 := (hc1 p.1 p.2 (hMedge p hp).2).1
        have h2 := (hMedge q hq).1
        omega
      · rw [if_neg hDp, if_neg hDq] at hpq
        exact hMrec p hp q hq hpq
  have hC_to_mc : (CL ∪ CR).card ≤ matchedCount P G := by
    rw [matchedCount_eq_card]
    apply Finset.card_le_card_of_injOn (fun x => if x < G then x else (P.getD x none).getD 0)
    · intro x hx
      rcases Finset.mem_union.mp hx with hxl | hxr
      · obtain ⟨hxr', hxd⟩ := Finset.mem_filter.mp hxl
        have hxG := Finset.mem_range.mp hxr'
        rw [if_pos hxG]
        refine Finset.mem_filter.mpr ⟨hxr', ?_⟩
        cases hPx : P.getD x none with
        | none =>
          rw [k6 x hxG hPx] at hxd
          cases hxd
        | some g' => rfl
      · obtain ⟨hxr', g', hPx, hDg'⟩ := Finset.mem_filter.mp hxr
        obtain ⟨hxG, hxn⟩ := Finset.mem_Ico.mp hxr'
        rw [if_neg (by omega), hPx]
        rw [show Option.getD (some g') 0 = g' from rfl]
        have hg'G : g' < G := by
          have := hcross x g' hPx
          omega
        refine Finset.mem_filter.mpr ⟨Finset.mem_range.mpr hg'G, ?_⟩
        rw [hsym x g' hPx]
        rfl
    · intro x hx y hy hxy
      simp only at hxy
      have hxcase : x < G ∨ (G ≤ x ∧ ∃ g', P.getD x none = some g' ∧ D.getD g' none ≠ none) := by
        rcases Finset.mem_union.mp hx with h | h
        · exact Or.inl (Finset.mem_range.mp (Finset.mem_filter.mp h).1)
        · obtain ⟨h1, h2⟩ := Finset.mem_filter.mp h
          exact Or.inr ⟨(Finset.mem_Ico.mp h1).1, h2⟩
      have hycase : y < G ∨ (G ≤ y ∧ ∃ g', P.getD y none = some g' ∧ D.getD g' none ≠ none) := by
        rcases Finset.mem_union.mp hy with h | h
        · exact Or.inl (Finset.mem_range.mp (Finset.mem_filter.mp h).1)
        · obtain ⟨h1, h2⟩ := Finset.mem_filter.mp h
          exact Or.inr ⟨(Finset.mem_Ico.mp h1).1, h2⟩
      rcases hxcase with hxG | ⟨hxG, gx, hPx, hDx⟩ <;>
        rcases hycase with hyG | ⟨hyG, gy, hPy, hDy⟩
      · rw [if_pos hxG, if_pos hyG] at hxy
        exact hxy
      · rw [if_pos hxG, if_neg (by omega), hPy] at hxy
        exfalso
        have hxCL : D.getD x none = none := by
          rcases Finset.mem_union.mp hx with h | h
          · exact (Finset.mem_filter.mp h).2
          · have := (Finset.mem_Ico.mp (Finset.mem_filter.mp h).1).1
            omega
        rw [show (Option.getD (some gy) 0) = gy from rfl] at hxy
        rw [hxy] at hxCL
        exact hDy hxCL
      · rw [if_neg (by omega), if_pos hyG, hPx] at hxy
        exfalso
        have hyCL : D.getD y none = none := by
          rcases Finset.mem_union.mp hy with h | h
          · exact (Finset.mem_filter.mp h).2
          · have := (Finset.mem_Ico.mp (Finset.mem_filter.mp h).1).1
            omega
        rw [show (Option.getD (some gx) 0) = gx from rfl] at hxy
        rw [← hxy] at hyCL
        exact hDx hyCL
      · rw [if_neg (by omega), if_neg (by omega), hPx, hPy] at hxy
        rw [show (Option.getD (some gx) 0) = gx from rfl,
          show (Option.getD (some gy) 0) = gy from rfl] at hxy
        have h1 := hsym x gx hPx
        have h2 := hsym y gy hPy
        rw [hxy] at h1
        rw [h1] at h2
        exact Option.some.inj h2
  exact le_trans hM_to_C hC_to_mc

/-! ### Augmenting paths and the BFS result -/

theorem pathTo_augPath (conns : List (List Nat)) (dist pair : List (Option Nat)) (n G : Nat)
    (hnE : conns.getD n [] = [])
    (hcross : ∀ a b, pair.getD a none = some b → b < n ∧ (a < G ↔ ¬ b < G)) :
    ∀ (vs : List Nat) (u : Nat), u ≠ n → PathTo conns dist pair n u vs n →
      IsAugPath conns pair u vs := by
  intro vs
  induction vs with
  | nil =>
    intro u hu hp
    exact absurd (show u = n from hp) hu
  | cons v vs ih =>
    intro u hu hp
    obtain ⟨h1, _, h3⟩ := hp
    cases hpv : pair.getD v none with
    | none =>
      rw [pairedIdx_none hpv] at h3
      cases vs with
      | nil => exact ⟨h1, Or.inl ⟨hpv, rfl⟩⟩
      | cons v' vs' =>
        obtain ⟨h4, _, _⟩ := h3
        rw [hnE] at h4
        cases h4
    | some g' =>
      rw [pairedIdx_some hpv] at h3
      have hg'n : g' ≠ n := by
        have := (hcross v g' hpv).1
        omega
      exact ⟨h1, Or.inr ⟨g', hpv, ih g' hg'n h3⟩⟩

theorem augPath_shuffles {a b : List (List Nat)} (h : Shuffles a b)
    (pair : List (Option Nat)) :
    ∀ (vs : List Nat) (u : Nat), IsAugPath a pair u vs ↔ IsAugPath b pair u vs := by
  intro vs
  induction vs with
  | nil => intro u; exact Iff.rfl
  | cons v vs ih =>
    intro u
    constructor
    · rintro ⟨h1, h2⟩
      refine ⟨(shuffles_mem h u v).mp h1, ?_⟩
      rcases h2 with hend | ⟨g', hg', hrest⟩
      · exact Or.inl hend
      · exact Or.inr ⟨g', hg', (ih g').mp hrest⟩
    · rintro ⟨h1, h2⟩
      refine ⟨(shuffles_mem h u v).mpr h1, ?_⟩
      rcases h2 with hend | ⟨g', hg', hrest⟩
      · exact Or.inl hend
      · exact Or.inr ⟨g', hg', (ih g').mpr hrest⟩

/-- `initializeSearchLayer` reports success exactly when an augmenting path
exists — independently of the order of the adjacency lists. -/
theorem bfs_true_iff_augpath (conns : List (List Nat)) (pair : List (Option Nat))
    (n G : Nat) (hGn : G ≤ n)
    (hc1 : ∀ g, ∀ v ∈ conns.getD g [], G ≤ v ∧ v < n)
    (hcE : ∀ g, G ≤ g → conns.getD g [] = [])
    (hgp : GoodPair pair G n) :
    bfsSuccess (initializeSearchLayer conns pair G n) n = true ↔
      ∃ g vs, g < G ∧ pair.getD g none = none ∧ IsAugPath conns pair g vs := by
  obtain ⟨hplen, hcross, hsym⟩ := hgp
  obtain ⟨D, hD, k0, k1, k2, k3, k4, k5, k6⟩ :=
    initializeSearchLayer_spec conns pair n G hGn hc1 hcross
  rw [hD]
  constructor
  · intro hbs
    rw [bfsSuccess] at hbs
    obtain ⟨k, hk⟩ : ∃ k, D.getD n none = some k := by
      cases h : D.getD n none with
      | none => rw [h] at hbs; cases hbs
      | some k => exact ⟨k, rfl⟩
    obtain ⟨g, vs, hg, hun, hpath, _⟩ := bfs_reach conns pair D n G k3 k4 k n hk
    exact ⟨g, vs, hg, hun,
      pathTo_augPath conns D pair n G (hcE n hGn) hcross vs g (by omega) hpath⟩
  · rintro ⟨g, vs, hg, hun, hpath⟩
    by_contra hbs
    have hbs' : (D.getD n none).isSome = false := by
      cases h : (D.getD n none).isSome with
      | false => rfl
      | true => exact absurd h hbs
    have hDn : D.getD n none = none := by
      cases h : D.getD n none with
      | none => rfl
      | some k => rw [h] at hbs'; cases hbs'
    have haux : ∀ (vs' : List Nat) (u : Nat), u < n → D.getD u none ≠ none →
        ¬ IsAugPath conns pair u vs' := by
      intro vs'
      induction vs' with
      | nil => intro u _ _ h; exact h
      | cons v vs' ih =>
        intro u hu hfin hap
        obtain ⟨h1, h2⟩ := hap
        have hscan := k2 u hu hfin v h1
        rcases h2 with ⟨hpv, _⟩ | ⟨g', hpv, hrest⟩
        · rw [pairedIdx_none hpv] at hscan
          exact hscan hDn
        · rw [pairedIdx_some hpv] at hscan
          have hg'n : g' < n := (hcross v g' hpv).1
          exact ih g' hg'n hscan hrest
    exact haux vs g (by omega) (by rw [k6 g hg hun]; simp) hpath

/-! ### The result map -/

theorem mapSet_entries (mp : List (Int × Int)) (k v : Int) :
    ∀ kv ∈ mapSet mp k v, kv ∈ mp ∨ kv = (k, v) := by
  intro kv hkv
  rw [mapSet] at hkv
  split at hkv
  · obtain ⟨e, he, heq⟩ := List.mem_map.mp hkv
    by_cases hek : e.1 = k
    · right
      rw [← heq]
      simp [hek]
    · left
      rw [← heq]
      simp [hek]
      exact he
  · rcases List.mem_append.mp hkv with h | h
    · exact Or.inl h
    · exact Or.inr (List.mem_singleton.mp h)

theorem mapSet_keys (mp : List (Int × Int)) (k v key : Int) :
    (∃ kv ∈ mapSet mp k v, kv.1 = key) ↔ (∃ kv ∈ mp, kv.1 = key) ∨ key = k := by
  rw [mapSet]
  split
  · rename_i hany
    constructor
    · rintro ⟨kv, hkv, hkey⟩
      obtain ⟨e, he, heq⟩ := List.mem_map.mp hkv
      refine Or.inl ⟨e, he, ?_⟩
      by_cases hek : e.1 = k
      · rw [hek, ← hkey, ← heq, if_pos hek]
      · rw [← hkey, ← heq, if_neg hek]
    · intro h
      obtain ⟨e, he, hek⟩ : ∃ e ∈ mp, e.1 = key := by
        rcases h with ⟨kv, hkv, hkey⟩ | rfl
        · exact ⟨kv, hkv, hkey⟩
        · obtain ⟨e, he, hpe⟩ := List.any_eq_true.mp hany
          exact ⟨e, he, of_decide_eq_true hpe⟩
      refine ⟨if e.1 = k then (k, v) else e, List.mem_map.mpr ⟨e, he, rfl⟩, ?_⟩
      by_cases h2 : e.1 = k
      · rw [if_pos h2]
        show k = key
        omega
      · rw [if_neg h2]
        exact hek
  · constructor
    · rintro ⟨kv, hkv, hkey⟩
      rcases List.mem_append.mp hkv with h | h
      · exact Or.inl ⟨kv, h, hkey⟩
      · right
        rw [← hkey, List.mem_singleton.mp h]
    · intro h
      rcases h with ⟨kv, hkv, hkey⟩ | rfl
      · exact ⟨kv, List.mem_append_left _ hkv, hkey⟩
      · exact ⟨(key, v), List.mem_append_right _ (List.mem_singleton.mpr rfl), rfl⟩

theorem mapSet_length (mp : List (Int × Int)) (k v : Int) :
    (mapSet mp k v).length =
      if mp.any (fun e => e.1 = k) then mp.length else mp.length + 1 := by
  rw [mapSet]
  split <;> simp

theorem shuffles_refl (a : List (List Nat)) : Shuffles a a :=
  List.forall₂_same.mpr (fun x _ => List.Perm.refl x)

/-- Basic facts about the adjacency lists of a registry-built matcher after
any shuffle. -/
theorem valid_shuffle_facts (m : Matcher) (shuffled : List (List Nat))
    (hv : ValidMatcher m) (hs : Shuffles m.conns shuffled) :
    shuffled.length = m.givers.length + m.receivers.length ∧
    m.givers.length ≤ shuffled.length ∧
    (∀ g, ∀ v ∈ shuffled.getD g [], m.givers.length ≤ v ∧ v < shuffled.length) ∧
    (∀ g, m.givers.length ≤ g → shuffled.getD g [] = []) := by
  obtain ⟨hlen, _, hrange, hempty⟩ := hv
  have hn : shuffled.length = m.givers.length + m.receivers.length := by
    rw [shuffles_length hs, hlen]
  refine ⟨hn, by omega, ?_, ?_⟩
  · intro g v hv'
    have := hrange g v ((shuffles_mem hs g v).mpr hv')
    omega
  · intro g hg
    have hperm := shuffles_getD hs g
    rw [hempty g hg] at hperm
    exact List.perm_nil.mp hperm.symm

/-- Being a matching only depends on edge membership, which the shuffle
preserves. -/
theorem isMatching_shuffles {a b : List (List Nat)} (h : Shuffles a b) (G : Nat)
    (M : Finset (Nat × Nat)) : IsMatching a G M ↔ IsMatching b G M := by
  constructor
  · rintro ⟨h1, h2, h3⟩
    exact ⟨fun p hp => ⟨(h1 p hp).1, (shuffles_mem h p.1 p.2).mp (h1 p hp).2⟩, h2, h3⟩
  · rintro ⟨h1, h2, h3⟩
    exact ⟨fun p hp => ⟨(h1 p hp).1, (shuffles_mem h p.1 p.2).mpr (h1 p hp).2⟩, h2, h3⟩

/-- Symmetry makes the partner relation injective: no two vertices share a
partner. -/
theorem goodPair_inj (pair : List (Option Nat)) (G n : Nat) (hgp : GoodPair pair G n) :
    ∀ a b c, pair.getD a none = some c → pair.getD b none = some c → a = b := by
  intro a b c ha hb
  have h1 := hgp.2.2 a c ha
  have h2 := hgp.2.2 b c hb
  rw [h1] at h2
  exact Option.some.inj h2

theorem matchedCount_replicate (k G : Nat) :
    matchedCount (List.replicate k (none : Option Nat)) G = 0 := by
  rw [matchedCount, List.countP_eq_zero]
  intro i _
  rw [getD_replicate_none]
  simp

/-- A full matched count means every giver is matched. -/
theorem matchedCount_all {P : List (Option Nat)} {G : Nat}
    (h : matchedCount P G = G) :
    ∀ i, i < G → (P.getD i none).isSome = true := by
  intro i hi
  have hall := List.countP_eq_length.mp (by rw [← matchedCount, h, List.length_range])
  exact hall i (List.mem_range.mpr hi)

/-! ### The extraction fold -/

theorem extractPairs_eq_fold (m : Matcher) (P : List (Option Nat)) :
    extractPairs m P = (List.range m.givers.length).foldl (extractStep m P) [] := rfl

theorem extractStep_none {m : Matcher} {P : List (Option Nat)} {i : Nat}
    (h : P.getD i none = none) (acc : List (Int × Int)) :
    extractStep m P acc i = acc := by
  unfold extractStep
  rw [h]

theorem extractStep_some {m : Matcher} {P : List (Option Nat)} {i r : Nat}
    (h : P.getD i none = some r) (acc : List (Int × Int)) :
    extractStep m P acc i =
      mapSet acc (m.givers.getD i 0) (m.receivers.getD (r - m.givers.length) 0) := by
  unfold extractStep
  rw [h]

/-- Extraction only reads the identifier lists, not the solve state. -/
theorem extractPairs_congr (m : Matcher) (conns' : List (List Nat))
    (pair' sd' : List (Option Nat)) (P : List (Option Nat)) :
    extractPairs { m with conns := conns', pair := pair', searchDistance := sd' } P =
      extractPairs m P := rfl

/-- Every entry produced by the extraction fold is either inherited from the
accumulator or built from a matched giver index. -/
theorem extract_fold_entries (m : Matcher) (P : List (Option Nat)) :
    ∀ (is : List Nat) (acc : List (Int × Int)), ∀ kv ∈ is.foldl (extractStep m P) acc,
      kv ∈ acc ∨ ∃ i ∈ is, ∃ r, P.getD i none = some r ∧
        kv = (m.givers.getD i 0, m.receivers.getD (r - m.givers.length) 0) := by
  intro is
  induction is with
  | nil => intro acc kv h; exact Or.inl h
  | cons i is' ih =>
    intro acc kv h
    rw [List.foldl_cons] at h
    cases hPi : P.getD i none with
    | none =>
      rw [extractStep_none hPi] at h
      rcases ih acc kv h with h' | ⟨i', hi', r', hr', hkv⟩
      · exact Or.inl h'
      · exact Or.inr ⟨i', List.mem_cons_of_mem _ hi', r', hr', hkv⟩
    | some r =>
      rw [extractStep_some hPi] at h
      rcases ih _ kv h with h' | ⟨i', hi', r', hr', hkv⟩
      · rcases mapSet_entries _ _ _ kv h' with h'' | h''
        · exact Or.inl h''
        · exact Or.inr ⟨i, List.mem_cons_self _ _, r, hPi, h''⟩
      · exact Or.inr ⟨i', List.mem_cons_of_mem _ hi', r', hr', hkv⟩

/-- The keys present after the extraction fold: the accumulator's keys plus
the identifier of every matched processed giver. -/
theorem extract_fold_keys (m : Matcher) (P : List (Option Nat)) :
    ∀ (is : List Nat) (acc : List (Int × Int)) (key : Int),
      (∃ kv ∈ is.foldl (extractStep m P) acc, kv.1 = key) ↔
        (∃ kv ∈ acc, kv.1 = key) ∨
        ∃ i ∈ is, (P.getD i none).isSome = true ∧ m.givers.getD i 0 = key := by
  intro is
  induction is with
  | nil =>
    intro acc key
    simp
  | cons i is' ih =>
    intro acc key
    rw [List.foldl_cons]
    cases hPi : P.getD i none with
    | none =>
      rw [extractStep_none hPi, ih]
      constructor
      · rintro (h | ⟨i', hi', hsome, hkey⟩)
        · exact Or.inl h
        · exact Or.inr ⟨i', List.mem_cons_of_mem _ hi', hsome, hkey⟩
      · rintro (h | ⟨i', hi', hsome, hkey⟩)
        · exact Or.inl h
        · rcases List.mem_cons.mp hi' with rfl | hi''
          · rw [hPi] at hsome
            cases hsome
          · exact Or.inr ⟨i', hi'', hsome, hkey⟩
    | some r =>
      rw [extractStep_some hPi, ih, mapSet_keys]
      constructor
      · rintro ((h | hk) | ⟨i', hi', hsome, hkey⟩)
        · exact Or.inl h
        · exact Or.inr ⟨i, List.mem_cons_self _ _, by rw [hPi]; rfl, hk.symm⟩
        · exact Or.inr ⟨i', List.mem_cons_of_mem _ hi', hsome, hkey⟩
      · rintro (h | ⟨i', hi', hsome, hkey⟩)
        · exact Or.inl (Or.inl h)
        · rcases List.mem_cons.mp hi' with rfl | hi''
          · exact Or.inl (Or.inr hkey.symm)
          · exact Or.inr ⟨i', hi'', hsome, hkey⟩

/-- Each extraction step grows the accumulator by at most one entry. -/
theorem extract_fold_len_le (m : Matcher) (P : List (Option Nat)) :
    ∀ (is : List Nat) (acc : List (Int × Int)),
      (is.foldl (extractStep m P) acc).length ≤ acc.length + is.length := by
  intro is
  induction is with
  | nil => intro acc; simp
  | cons i is' ih =>
    intro acc
    rw [List.foldl_cons, List.length_cons]
    cases hPi : P.getD i none with
    | none =>
      rw [extractStep_none hPi]
      have := ih acc
      omega
    | some r =>
      rw [extractStep_some hPi]
      have h1 := ih (mapSet acc (m.givers.getD i 0)
        (m.receivers.getD (r - m.givers.length) 0))
      have h2 := mapSet_length acc (m.givers.getD i 0)
        (m.receivers.getD (r - m.givers.length) 0)
      by_cases hany : acc.any (fun e => e.1 = m.givers.getD i 0) = true
      · rw [if_pos hany] at h2
        omega
      · rw [if_neg hany] at h2
        omega

/-- If the extraction fold produced one entry per processed index, then every
processed index was matched, every step appended, and the result is the
accumulator followed by the per-index entries in order. -/
theorem extract_fold_exact (m : Matcher) (P : List (Option Nat)) :
    ∀ (is : List Nat) (acc : List (Int × Int)),
      (is.foldl (extractStep m P) acc).length = acc.length + is.length →
      is.foldl (extractStep m P) acc =
        acc ++ is.map (fun i => (m.givers.getD i 0,
          m.receivers.getD ((P.getD i none).getD 0 - m.givers.length) 0)) ∧
      (∀ i ∈ is, (P.getD i none).isSome = true) := by
  intro is
  induction is with
  | nil =>
    intro acc _
    simp
  | cons i is' ih =>
    intro acc hlen
    rw [List.foldl_cons] at hlen ⊢
    rw [List.length_cons] at hlen
    cases hPi : P.getD i none with
    | none =>
      rw [extractStep_none hPi] at hlen
      have := extract_fold_len_le m P is' acc
      omega
    | some r =>
      rw [extractStep_some hPi] at hlen ⊢
      have h2 := mapSet_length acc (m.givers.getD i 0)
        (m.receivers.getD (r - m.givers.length) 0)
      by_cases hany : acc.any (fun e => e.1 = m.givers.getD i 0) = true
      · rw [if_pos hany] at h2
        have := extract_fold_len_le m P is' (mapSet acc (m.givers.getD i 0)
          (m.receivers.getD (r - m.givers.length) 0))
        omega
      · have happ : mapSet acc (m.givers.getD i 0)
            (m.receivers.getD (r - m.givers.length) 0) =
            acc ++ [(m.givers.getD i 0, m.receivers.getD (r - m.givers.length) 0)] := by
          rw [mapSet, if_neg hany]
        rw [happ] at hlen ⊢
        obtain ⟨hform, hmatched⟩ := ih
          (acc ++ [(m.givers.getD i 0, m.receivers.getD (r - m.givers.length) 0)])
          (by rw [List.length_append, List.length_singleton]; omega)
        refine ⟨?_, ?_⟩
        · rw [hform, List.map_cons, List.append_assoc, List.singleton_append]
          have hPi' : P[i]?.getD none = some r := by
            rw [← List.getD_eq_getElem?_getD]
            exact hPi
          simp [hPi']
        · intro j hj
          rcases List.mem_cons.mp hj with rfl | hj'
          · rw [hPi]; rfl
          · exact hmatched j hj'

/-- With pairwise distinct keys for the processed indices, fresh relative to
the accumulator, the extraction fold adds exactly one entry per matched
index. -/
theorem extract_fold_len_nodup (m : Matcher) (P : List (Option Nat)) :
    ∀ (is : List Nat) (acc : List (Int × Int)),
      is.Nodup →
      (∀ i ∈ is, ¬ ∃ kv ∈ acc, kv.1 = m.givers.getD i 0) →
      (∀ i ∈ is, ∀ j ∈ is, m.givers.getD i 0 = m.givers.getD j 0 → i = j) →
      (is.foldl (extractStep m P) acc).length =
        acc.length + is.countP (fun i => (P.getD i none).isSome) := by
  intro is
  induction is with
  | nil => intro acc _ _ _; simp
  | cons i is' ih =>
    intro acc hnd hfresh hinj
    rw [List.foldl_cons, List.countP_cons]
    have hnd' : is'.Nodup := (List.nodup_cons.mp hnd).2
    have hnotmem : i ∉ is' := (List.nodup_cons.mp hnd).1
    cases hPi : P.getD i none with
    | none =>
      rw [extractStep_none hPi]
      rw [ih acc hnd' (fun j hj => hfresh j (List.mem_cons_of_mem _ hj))
        (fun a ha b hb => hinj a (List.mem_cons_of_mem _ ha) b (List.mem_cons_of_mem _ hb))]
      simp [hPi]
    | some r =>
      rw [extractStep_some hPi]
      have hany : acc.any (fun e => e.1 = m.givers.getD i 0) = false := by
        cases h : acc.any (fun e => e.1 = m.givers.getD i 0) with
        | false => rfl
        | true =>
          obtain ⟨e, he, hpe⟩ := List.any_eq_true.mp h
          exact absurd ⟨e, he, of_decide_eq_true hpe⟩ (hfresh i (List.mem_cons_self _ _))
      have hfresh' : ∀ j ∈ is', ¬ ∃ kv ∈ mapSet acc (m.givers.getD i 0)
          (m.receivers.getD (r - m.givers.length) 0), kv.1 = m.givers.getD j 0 := by
        intro j hj hkey
        rcases (mapSet_keys acc _ _ _).mp hkey with h' | h'
        · exact hfresh j (List.mem_cons_of_mem _ hj) h'
        · exact hnotmem (by
            rw [hinj j (List.mem_cons_of_mem _ hj) i (List.mem_cons_self _ _) h'] at hj
            exact hj)
      rw [ih _ hnd' hfresh'
        (fun a ha b hb => hinj a (List.mem_cons_of_mem _ ha) b (List.mem_cons_of_mem _ hb))]
      rw [mapSet_length, hany]
      simp
      omega

/-- `getD` at in-range positions of a duplicate-free list is injective. -/
theorem nodup_getD_inj {l : List Int} (h : l.Nodup) {i j : Nat}
    (hi : i < l.length) (hj : j < l.length) (he : l.getD i 0 = l.getD j 0) : i = j := by
  rw [List.getD_eq_getElem?_getD, List.getElem?_eq_getElem hi] at he
  rw [List.getD_eq_getElem?_getD, List.getElem?_eq_getElem hj] at he
  simp at he
  exact (List.Nodup.getElem_inj_iff h).mp he

theorem getD_mem_int (l : List Int) (i : Nat) (hi : i < l.length) :
    l.getD i 0 ∈ l := by
  rw [List.getD_eq_getElem?_getD, List.getElem?_eq_getElem hi]
  exact List.getElem_mem _

/-! ### C5: bounds checking in `addSecretSantaPairing`

In the pure embedding a failed call returns `.error` carrying no state at all,
mirroring that the TS method throws before performing any mutation; the
caller's instance is unchanged by construction. -/

/-- C5: `addSecretSantaPairing(giver, receiver)` throws (returns `.error`, the
state untouched) if and only if `giver < 0`, `giver >= givers.length`,
`receiver < 0`, or `receiver >= receivers.length`. -/
theorem addSecretSantaPairing_error_iff (m : Matcher) (g r : Int) :
    addSecretSantaPairing m g r = .error "Participant indices are out of bounds."
      ↔ (g < 0 ∨ (m.givers.length : Int) ≤ g ∨ r < 0 ∨ (m.receivers.length : Int) ≤ r) := by
  unfold addSecretSantaPairing
  split
  · rename_i h; simpa using h
  · rename_i h; simp; omega

/-! ### C8: the success case of `addSecretSantaPairing` appends one edge -/

/-- C8: for in-range indices, `addSecretSantaPairing` succeeds, appends exactly
`givers.length + receiver` to giver's adjacency list, and changes nothing else:
other adjacency lists, the match state, the distance array and the identifier
lists are all unchanged (no filtering of duplicates or self-pairs happens). -/
theorem addSecretSantaPairing_appends (m : Matcher) (g r : Int)
    (hg0 : 0 ≤ g) (hg : g < (m.givers.length : Int))
    (hr0 : 0 ≤ r) (hr : r < (m.receivers.length : Int))
    (hlen : m.conns.length = m.givers.length + m.receivers.length) :
    ∃ m', addSecretSantaPairing m g r = .ok m' ∧
      m'.conns.getD g.toNat [] = m.conns.getD g.toNat [] ++ [m.givers.length + r.toNat] ∧
      (∀ i, i ≠ g.toNat → m'.conns.getD i [] = m.conns.getD i []) ∧
      m'.pair = m.pair ∧ m'.searchDistance = m.searchDistance ∧
      m'.givers = m.givers ∧ m'.receivers = m.receivers := by
  have hcond : ¬(g < 0 ∨ (m.givers.length : Int) ≤ g ∨
      r < 0 ∨ (m.receivers.length : Int) ≤ r) := by omega
  have hlt : g.toNat < m.conns.length := by omega
  refine ⟨{ m with conns := (m.conns.set g.toNat
      (m.conns.getD g.toNat [] ++ [m.givers.length + r.toNat])) }, ?_, ?_, ?_, rfl, rfl, rfl, rfl⟩
  · unfold addSecretSantaPairing
    rw [if_neg hcond]
  · exact getD_set_self _ _ _ _ hlt
  · intro i hi
    exact getD_set_ne _ _ _ (fun h => hi h.symm)

/-- Witness for C8 at a concrete instance. -/
theorem addSecretSantaPairing_appends_witness :
    ∃ m', addSecretSantaPairing (newMatcher [1] [2]) 0 0 = .ok m' ∧
      m'.conns.getD (0 : Int).toNat [] =
        (newMatcher [1] [2]).conns.getD (0 : Int).toNat [] ++
          [(newMatcher [1] [2]).givers.length + (0 : Int).toNat] ∧
      (∀ i, i ≠ (0 : Int).toNat →
        m'.conns.getD i [] = (newMatcher [1] [2]).conns.getD i []) ∧
      m'.pair = (newMatcher [1] [2]).pair ∧
      m'.searchDistance = (newMatcher [1] [2]).searchDistance ∧
      m'.givers = (newMatcher [1] [2]).givers ∧
      m'.receivers = (newMatcher [1] [2]).receivers :=
  addSecretSantaPairing_appends (newMatcher [1] [2]) 0 0 (by decide) (by decide)
    (by decide) (by decide) (by decide)

/-! ### C9: the two-participant instance has a unique outcome -/

/-- C9: with givers `[a, b]` and receivers `[a, b]` (distinct identifiers) and
exactly the edges `(0,1)` and `(1,0)` registered, `generateSecretSantaPairs`
returns `{a -> b, b -> a}`, whatever the random shuffle does. -/
theorem generateSecretSantaPairs_two_cycle (a b : Int) (m₁ m₂ : Matcher)
    (shuffled : List (List Nat)) (hab : a ≠ b)
    (h1 : addSecretSantaPairing (newMatcher [a, b] [a, b]) 0 1 = .ok m₁)
    (h2 : addSecretSantaPairing m₁ 1 0 = .ok m₂)
    (hs : Shuffles m₂.conns shuffled) :
    (generateSecretSantaPairs m₂ shuffled).1 = [(a, b), (b, a)] := by
  have e1 : addSecretSantaPairing (newMatcher [a, b] [a, b]) 0 1 =
      .ok { givers := [a, b], receivers := [a, b], conns := [[3], [], [], []],
            pair := [none, none, none, none],
            searchDistance := [none, none, none, none, none] } := rfl
  injection e1.symm.trans h1 with hm₁
  subst hm₁
  have e2 : addSecretSantaPairing
      { givers := [a, b], receivers := [a, b], conns := [[3], [], [], []],
        pair := [none, none, none, none],
        searchDistance := [none, none, none, none, none] } 1 0 =
      .ok { givers := [a, b], receivers := [a, b], conns := [[3], [2], [], []],
            pair := [none, none, none, none],
            searchDistance := [none, none, none, none, none] } := rfl
  injection e2.symm.trans h2 with hm₂
  subst hm₂
  have hsh : shuffled = [[3], [2], [], []] := by
    cases hs with
    | cons h0 hs1 => cases hs1 with
      | cons h1' hs2 => cases hs2 with
        | cons h2' hs3 => cases hs3 with
          | cons h3' hs4 =>
            cases hs4
            rw [List.perm_singleton.mp h0.symm, List.perm_singleton.mp h1'.symm,
              List.perm_nil.mp h2'.symm, List.perm_nil.mp h3'.symm]
  subst hsh
  have hkfst : (hkLoop [[3], [2], [], []] 4 2 3 [none, none, none, none]).1 =
      [some 3, some 2, some 1, some 0] := by decide
  simp only [generateSecretSantaPairs, List.length_cons, List.length_nil]
  rw [hkfst]
  simp [extractPairs, List.range_succ, mapSet, hab]

/-- Witness for C9 at `a = 1`, `b = 2`. -/
theorem generateSecretSantaPairs_two_cycle_witness :
    (generateSecretSantaPairs
      { givers := [1, 2], receivers := [1, 2], conns := [[3], [2], [], []],
        pair := [none, none, none, none],
        searchDistance := [none, none, none, none, none] }
      [[3], [2], [], []]).1 = [((1 : Int), (2 : Int)), (2, 1)] :=
  generateSecretSantaPairs_two_cycle 1 2 _ _ _ (by decide) rfl rfl
    (by constructor <;> [skip; constructor <;> [skip; constructor <;>
      [skip; constructor <;> [skip; constructor]]]] <;> exact List.Perm.refl _)

/-! ### The remaining claims about `generateSecretSantaPairs` -/

theorem sampleMatcher_valid : ValidMatcher sampleMatcher :=
  addSecretSantaPairing_preserves_valid _ _ 1 0
    (addSecretSantaPairing_preserves_valid _ _ 0 1 (newMatcher_valid [1, 2] [1, 2]) rfl) rfl

theorem dupMatcher_valid : ValidMatcher dupMatcher :=
  addSecretSantaPairing_preserves_valid _ _ 1 0
    (addSecretSantaPairing_preserves_valid _ _ 0 1 (newMatcher_valid [5, 5] [5, 5]) rfl) rfl

/-- The extraction loop, for pairwise distinct giver identifiers: the keys are
exactly the identifiers of matched givers and the map size is the matched
count. -/
theorem extract_spec (m : Matcher) (P : List (Option Nat)) (hnd : m.givers.Nodup) :
    (∀ key, (∃ kv ∈ extractPairs m P, kv.1 = key) ↔
      ∃ i, i < m.givers.length ∧ (P.getD i none).isSome = true ∧
        m.givers.getD i 0 = key) ∧
    (extractPairs m P).length = matchedCount P m.givers.length := by
  constructor
  · intro key
    rw [extractPairs_eq_fold, extract_fold_keys]
    constructor
    · rintro (⟨kv, hkv, _⟩ | ⟨i, hi, hsome, hkey⟩)
      · cases hkv
      · exact ⟨i, List.mem_range.mp hi, hsome, hkey⟩
    · rintro ⟨i, hi, hsome, hkey⟩
      exact Or.inr ⟨i, List.mem_range.mpr hi, hsome, hkey⟩
  · rw [extractPairs_eq_fold,
      extract_fold_len_nodup m P (List.range m.givers.length) [] (List.nodup_range _)
        (by rintro i _ ⟨kv, hkv, _⟩; cases hkv)
        (fun a ha b hb he =>
          nodup_getD_inj hnd (List.mem_range.mp ha) (List.mem_range.mp hb) he),
      List.length_nil, Nat.zero_add]
    rfl

/-- C7 does not hold as stated: when two givers share a domain identifier, the
`Map.set` keyed by identifier collapses their entries, and the map ends up
smaller than the number of matched givers.  Here both givers (identifier `5`)
are matched, yet the returned map is the single entry `{5 -> 5}`. -/
theorem generate_map_size_counterexample :
    ValidMatcher dupMatcher ∧ Shuffles dupMatcher.conns dupMatcher.conns ∧
    (generateSecretSantaPairs dupMatcher dupMatcher.conns).1.length = 1 ∧
    matchedCount (generateSecretSantaPairs dupMatcher dupMatcher.conns).2.pair
      dupMatcher.givers.length = 2 :=
  ⟨dupMatcher_valid, shuffles_refl _, by decide, by decide⟩

/-- C7 (amended with pairwise distinct giver identifiers): the map returned by
`generateSecretSantaPairs` has a key for a giver's identifier iff that giver is
matched in the final match state, its size is the number of matched givers,
and its size is `G` exactly when the final matching is perfect. -/
theorem generate_map_size (m : Matcher) (shuffled : List (List Nat))
    (hnd : m.givers.Nodup) :
    (∀ key, (∃ kv ∈ (generateSecretSantaPairs m shuffled).1, kv.1 = key) ↔
      ∃ i, i < m.givers.length ∧
        ((generateSecretSantaPairs m shuffled).2.pair.getD i none).isSome = true ∧
        m.givers.getD i 0 = key) ∧
    (generateSecretSantaPairs m shuffled).1.length =
      matchedCount (generateSecretSantaPairs m shuffled).2.pair m.givers.length ∧
    ((generateSecretSantaPairs m shuffled).1.length = m.givers.length ↔
      matchedCount (generateSecretSantaPairs m shuffled).2.pair m.givers.length =
        m.givers.length) := by
  rw [generate_eq]
  dsimp only
  obtain ⟨h1, h2⟩ := extract_spec m
    (hkLoop shuffled shuffled.length m.givers.length (m.givers.length + 1) m.pair).1 hnd
  exact ⟨h1, h2, by rw [h2]⟩

/-- Witness for the amended C7 at the concrete two-participant instance. -/
theorem generate_map_size_witness :
    sampleMatcher.givers.Nodup ∧
    ((∀ key, (∃ kv ∈ (generateSecretSantaPairs sampleMatcher sampleMatcher.conns).1,
        kv.1 = key) ↔
      ∃ i, i < sampleMatcher.givers.length ∧
        ((generateSecretSantaPairs sampleMatcher
          sampleMatcher.conns).2.pair.getD i none).isSome = true ∧
        sampleMatcher.givers.getD i 0 = key) ∧
    (generateSecretSantaPairs sampleMatcher sampleMatcher.conns).1.length =
      matchedCount (generateSecretSantaPairs sampleMatcher sampleMatcher.conns).2.pair
        sampleMatcher.givers.length ∧
    ((generateSecretSantaPairs sampleMatcher sampleMatcher.conns).1.length =
        sampleMatcher.givers.length ↔
      matchedCount (generateSecretSantaPairs sampleMatcher sampleMatcher.conns).2.pair
          sampleMatcher.givers.length =
        sampleMatcher.givers.length)) :=
  ⟨by decide, generate_map_size sampleMatcher sampleMatcher.conns (by decide)⟩

/-- C2: every entry `(giverId, receiverId)` of the returned map corresponds to
an edge previously registered for that giver via `addSecretSantaPairing`;
consequently, for any notion of excluded pairing that the caller kept out of
the registry (self-pairs, exclusion pairs), no entry of the final map is
excluded. -/
theorem generate_entries_registered (m : Matcher) (shuffled : List (List Nat))
    (hv : ValidMatcher m) (hs : Shuffles m.conns shuffled) :
    (∀ kv ∈ (generateSecretSantaPairs m shuffled).1,
      ∃ i r, i < m.givers.length ∧ r < m.receivers.length ∧
        (m.givers.length + r) ∈ m.conns.getD i [] ∧
        kv = (m.givers.getD i 0, m.receivers.getD r 0)) ∧
    (∀ Excluded : Int → Int → Prop,
      (∀ i r, i < m.givers.length → r < m.receivers.length →
        (m.givers.length + r) ∈ m.conns.getD i [] →
        ¬ Excluded (m.givers.getD i 0) (m.receivers.getD r 0)) →
      ∀ kv ∈ (generateSecretSantaPairs m shuffled).1, ¬ Excluded kv.1 kv.2) := by
  obtain ⟨P, Dd, hPD, hgen, hgp, hedge, hmc, hDd, hbs⟩ := generate_core m shuffled hv hs
  have hmain : ∀ kv ∈ (generateSecretSantaPairs m shuffled).1,
      ∃ i r, i < m.givers.length ∧ r < m.receivers.length ∧
        (m.givers.length + r) ∈ m.conns.getD i [] ∧
        kv = (m.givers.getD i 0, m.receivers.getD r 0) := by
    intro kv hkv
    rw [hgen] at hkv
    have hkv' : kv ∈ (List.range m.givers.length).foldl (extractStep m P) [] := hkv
    rcases extract_fold_entries m P (List.range m.givers.length) [] kv hkv' with
      h | ⟨i, hi, rv, hrv, hkveq⟩
    · cases h
    · have hiG : i < m.givers.length := List.mem_range.mp hi
      have hconn : rv ∈ m.conns.getD i [] := hedge i rv hiG hrv
      obtain ⟨_, _, hrange, _⟩ := hv
      have hb := hrange i rv hconn
      refine ⟨i, rv - m.givers.length, hiG, by omega, ?_, ?_⟩
      · rw [show m.givers.length + (rv - m.givers.length) = rv from by omega]
        exact hconn
      · exact hkveq
  refine ⟨hmain, fun Excluded hexc kv hkv => ?_⟩
  obtain ⟨i, r, hi, hr, hconn, hkveq⟩ := hmain kv hkv
  rw [hkveq]
  exact hexc i r hi hr hconn

/-- Witness for C2 at the concrete two-participant instance. -/
theorem generate_entries_registered_witness :
    ValidMatcher sampleMatcher ∧ Shuffles sampleMatcher.conns sampleMatcher.conns ∧
    ((∀ kv ∈ (generateSecretSantaPairs sampleMatcher sampleMatcher.conns).1,
      ∃ i r, i < sampleMatcher.givers.length ∧ r < sampleMatcher.receivers.length ∧
        (sampleMatcher.givers.length + r) ∈ sampleMatcher.conns.getD i [] ∧
        kv = (sampleMatcher.givers.getD i 0, sampleMatcher.receivers.getD r 0)) ∧
    (∀ Excluded : Int → Int → Prop,
      (∀ i r, i < sampleMatcher.givers.length → r < sampleMatcher.receivers.length →
        (sampleMatcher.givers.length + r) ∈ sampleMatcher.conns.getD i [] →
        ¬ Excluded (sampleMatcher.givers.getD i 0) (sampleMatcher.receivers.getD r 0)) →
      ∀ kv ∈ (generateSecretSantaPairs sampleMatcher sampleMatcher.conns).1,
        ¬ Excluded kv.1 kv.2)) :=
  ⟨sampleMatcher_valid, shuffles_refl _,
    generate_entries_registered sampleMatcher sampleMatcher.conns
      sampleMatcher_valid (shuffles_refl _)⟩

/-- C1: on a registry-built graph, `generateSecretSantaPairs` leaves a maximum
matching of the registered bipartite graph: every matching of the registered
graph has at most `matchedCount` edges; the loop stopped exactly on a BFS
whose sentinel distance stayed infinite; at that point no augmenting path
exists; and if the registered graph admits a perfect matching, every giver is
matched, every giver's identifier is a key of the returned map, and (for
pairwise distinct giver identifiers) the map has one entry per giver. -/
theorem generate_maximum_matching (m : Matcher) (shuffled : List (List Nat))
    (hv : ValidMatcher m) (hs : Shuffles m.conns shuffled) :
    (∀ M, IsMatching m.conns m.givers.length M →
      M.card ≤ matchedCount (generateSecretSantaPairs m shuffled).2.pair
        m.givers.length) ∧
    bfsSuccess (generateSecretSantaPairs m shuffled).2.searchDistance
      shuffled.length = false ∧
    (generateSecretSantaPairs m shuffled).2.searchDistance =
      initializeSearchLayer shuffled (generateSecretSantaPairs m shuffled).2.pair
        m.givers.length shuffled.length ∧
    (¬ ∃ g vs, g < m.givers.length ∧
      (generateSecretSantaPairs m shuffled).2.pair.getD g none = none ∧
      IsAugPath m.conns (generateSecretSantaPairs m shuffled).2.pair g vs) ∧
    (∀ M, IsMatching m.conns m.givers.length M → M.card = m.givers.length →
      matchedCount (generateSecretSantaPairs m shuffled).2.pair m.givers.length =
        m.givers.length ∧
      (∀ g, g < m.givers.length →
        ∃ kv ∈ (generateSecretSantaPairs m shuffled).1, kv.1 = m.givers.getD g 0) ∧
      (m.givers.Nodup →
        (generateSecretSantaPairs m shuffled).1.length = m.givers.length)) := by
  obtain ⟨P, Dd, hPD, hgen, hgp, hedge, hmc, hDd, hbs⟩ := generate_core m shuffled hv hs
  obtain ⟨hn, hGn, hc1', hcE'⟩ := valid_shuffle_facts m shuffled hv hs
  rw [hgen]
  dsimp only
  have hmax : ∀ M, IsMatching m.conns m.givers.length M →
      M.card ≤ matchedCount P m.givers.length := by
    intro M hM
    exact max_matching shuffled shuffled.length m.givers.length hGn hc1' P hgp
      (hDd ▸ hbs) M ((isMatching_shuffles hs m.givers.length M).mp hM)
  refine ⟨hmax, hbs, hDd, ?_, ?_⟩
  · rintro ⟨g, vs, hg, hpg, hap⟩
    have hap' : IsAugPath shuffled P g vs := (augPath_shuffles hs P vs g).mp hap
    have htrue := (bfs_true_iff_augpath shuffled P shuffled.length m.givers.length
      hGn hc1' hcE' hgp).mpr ⟨g, vs, hg, hpg, hap'⟩
    rw [← hDd] at htrue
    rw [htrue] at hbs
    cases hbs
  · intro M hM hcard
    have h1 := hmax M hM
    have h2 := matchedCount_le P m.givers.length
    have hfull : matchedCount P m.givers.length = m.givers.length := by omega
    refine ⟨hfull, ?_, ?_⟩
    · intro g hg
      have hkeys := (extract_fold_keys m P (List.range m.givers.length) []
        (m.givers.getD g 0)).mpr
        (Or.inr ⟨g, List.mem_range.mpr hg, matchedCount_all hfull g hg, rfl⟩)
      exact hkeys
    · intro hnd
      rw [(extract_spec m P hnd).2]
      exact hfull

/-- Witness for C1 at the concrete two-participant instance. -/
theorem generate_maximum_matching_witness :
    ValidMatcher sampleMatcher ∧ Shuffles sampleMatcher.conns sampleMatcher.conns ∧
    ((∀ M, IsMatching sampleMatcher.conns sampleMatcher.givers.length M →
      M.card ≤ matchedCount
        (generateSecretSantaPairs sampleMatcher sampleMatcher.conns).2.pair
        sampleMatcher.givers.length) ∧
    bfsSuccess (generateSecretSantaPairs sampleMatcher sampleMatcher.conns).2.searchDistance
      sampleMatcher.conns.length = false ∧
    (generateSecretSantaPairs sampleMatcher sampleMatcher.conns).2.searchDistance =
      initializeSearchLayer sampleMatcher.conns
        (generateSecretSantaPairs sampleMatcher sampleMatcher.conns).2.pair
        sampleMatcher.givers.length sampleMatcher.conns.length ∧
    (¬ ∃ g vs, g < sampleMatcher.givers.length ∧
      (generateSecretSantaPairs sampleMatcher
        sampleMatcher.conns).2.pair.getD g none = none ∧
      IsAugPath sampleMatcher.conns
        (generateSecretSantaPairs sampleMatcher sampleMatcher.conns).2.pair g vs) ∧
    (∀ M, IsMatching sampleMatcher.conns sampleMatcher.givers.length M →
      M.card = sampleMatcher.givers.length →
      matchedCount (generateSecretSantaPairs sampleMatcher sampleMatcher.conns).2.pair
          sampleMatcher.givers.length = sampleMatcher.givers.length ∧
      (∀ g, g < sampleMatcher.givers.length →
        ∃ kv ∈ (generateSecretSantaPairs sampleMatcher sampleMatcher.conns).1,
          kv.1 = sampleMatcher.givers.getD g 0) ∧
      (sampleMatcher.givers.Nodup →
        (generateSecretSantaPairs sampleMatcher sampleMatcher.conns).1.length =
          sampleMatcher.givers.length))) :=
  ⟨sampleMatcher_valid, shuffles_refl _,
    generate_maximum_matching sampleMatcher sampleMatcher.conns
      sampleMatcher_valid (shuffles_refl _)⟩

/-- C4: the solve always terminates on a well-formed graph: every iteration of
the `while` loop whose BFS succeeds strictly increases the matched count, the
run with fuel `G + 1` genuinely reaches a failed BFS, and giving the loop any
more fuel than `G + 1` changes nothing — the loop body runs at most `G + 1`
times. -/
theorem generate_terminates (m : Matcher) (shuffled : List (List Nat))
    (hv : ValidMatcher m) (hs : Shuffles m.conns shuffled) :
    (∀ pair, GoodPair pair m.givers.length shuffled.length →
      bfsSuccess (initializeSearchLayer shuffled pair m.givers.length shuffled.length)
        shuffled.length = true →
      matchedCount pair m.givers.length <
        matchedCount (augmentPass shuffled
          (initializeSearchLayer shuffled pair m.givers.length shuffled.length)
          shuffled.length m.givers.length (shuffled.length + 2) pair)
          m.givers.length) ∧
    bfsSuccess (generateSecretSantaPairs m shuffled).2.searchDistance
      shuffled.length = false ∧
    (∀ fuel, m.givers.length + 1 ≤ fuel →
      hkLoop shuffled shuffled.length m.givers.length fuel m.pair =
        hkLoop shuffled shuffled.length m.givers.length (m.givers.length + 1) m.pair) := by
  obtain ⟨hn, hGn, hc1', hcE'⟩ := valid_shuffle_facts m shuffled hv hs
  obtain ⟨P, Dd, hPD, hgen, hgp, hedge, hmc, hDd, hbs⟩ := generate_core m shuffled hv hs
  refine ⟨?_, ?_, ?_⟩
  · intro pair hgp' hbs'
    exact (phase_progress shuffled shuffled.length m.givers.length hGn hc1' hcE'
      pair hgp' hbs').2.2.2
  · rw [hgen]
    exact hbs
  · intro fuel hfuel
    obtain ⟨hlen, hpair, hrange, hempty⟩ := hv
    have hgp0 : GoodPair m.pair m.givers.length shuffled.length := by
      rw [hpair, ← hn]
      exact goodPair_replicate _ _
    have hmc0 : matchedCount m.pair m.givers.length = 0 := by
      rw [hpair]
      exact matchedCount_replicate _ _
    obtain ⟨P', Dd', hPD', _, _, _, _, _, _, c7⟩ :=
      hkLoop_spec shuffled shuffled.length m.givers.length hGn hc1' hcE'
        (m.givers.length + 1) m.pair hgp0
    exact c7 fuel (by omega) (by omega)

/-- Witness for C4 at the concrete two-participant instance. -/
theorem generate_terminates_witness :
    ValidMatcher sampleMatcher ∧ Shuffles sampleMatcher.conns sampleMatcher.conns ∧
    ((∀ pair, GoodPair pair sampleMatcher.givers.length sampleMatcher.conns.length →
      bfsSuccess (initializeSearchLayer sampleMatcher.conns pair
        sampleMatcher.givers.length sampleMatcher.conns.length)
        sampleMatcher.conns.length = true →
      matchedCount pair sampleMatcher.givers.length <
        matchedCount (augmentPass sampleMatcher.conns
          (initializeSearchLayer sampleMatcher.conns pair
            sampleMatcher.givers.length sampleMatcher.conns.length)
          sampleMatcher.conns.length sampleMatcher.givers.length
          (sampleMatcher.conns.length + 2) pair)
          sampleMatcher.givers.length) ∧
    bfsSuccess (generateSecretSantaPairs sampleMatcher
      sampleMatcher.conns).2.searchDistance sampleMatcher.conns.length = false ∧
    (∀ fuel, sampleMatcher.givers.length + 1 ≤ fuel →
      hkLoop sampleMatcher.conns sampleMatcher.conns.length
          sampleMatcher.givers.length fuel sampleMatcher.pair =
        hkLoop sampleMatcher.conns sampleMatcher.conns.length
          sampleMatcher.givers.length (sampleMatcher.givers.length + 1)
          sampleMatcher.pair)) :=
  ⟨sampleMatcher_valid, shuffles_refl _,
    generate_terminates sampleMatcher sampleMatcher.conns
      sampleMatcher_valid (shuffles_refl _)⟩

/-- C6: the match state is symmetric with at most one partner per vertex
(`pair[u] = v → pair[v] = u`, and no two vertices share a partner) after
construction, after every augmentation step of a solve phase (any prefix of
the sweep of top-level `attemptAssignment` calls, run against the layering
computed at phase start), and in the final state of `generateSecretSantaPairs`. -/
theorem match_state_symmetric (gs rs : List Int) (conns : List (List Nat)) (G n : Nat)
    (hGn : G ≤ n) (hc1 : ∀ g, ∀ v ∈ conns.getD g [], G ≤ v ∧ v < n)
    (m : Matcher) (shuffled : List (List Nat))
    (hv : ValidMatcher m) (hs : Shuffles m.conns shuffled) :
    ((∀ u v, (newMatcher gs rs).pair.getD u none = some v →
        (newMatcher gs rs).pair.getD v none = some u) ∧
     (∀ u v w, (newMatcher gs rs).pair.getD u none = some w →
        (newMatcher gs rs).pair.getD v none = some w → u = v)) ∧
    (∀ (us : List Nat) (fuel : Nat) (pair p' : List (Option Nat)),
      (∀ u ∈ us, u < G) → GoodPair pair G n →
      us.foldl (fun q u =>
        if q.getD u none = none
        then (attemptAssignment conns (initializeSearchLayer conns pair G n) n fuel u q).2
        else q) pair = p' →
      (∀ u v, p'.getD u none = some v → p'.getD v none = some u) ∧
      (∀ u v w, p'.getD u none = some w → p'.getD v none = some w → u = v)) ∧
    ((∀ u v, (generateSecretSantaPairs m shuffled).2.pair.getD u none = some v →
        (generateSecretSantaPairs m shuffled).2.pair.getD v none = some u) ∧
     (∀ u v w, (generateSecretSantaPairs m shuffled).2.pair.getD u none = some w →
        (generateSecretSantaPairs m shuffled).2.pair.getD v none = some w → u = v)) := by
  refine ⟨?_, ?_, ?_⟩
  · have hz : ∀ x, (newMatcher gs rs).pair.getD x none = none := by
      intro x
      rw [show (newMatcher gs rs).pair =
        List.replicate (gs.length + rs.length) none from rfl, getD_replicate_none]
    constructor
    · intro u v hu
      rw [hz u] at hu
      cases hu
    · intro u v w hu _
      rw [hz u] at hu
      cases hu
  · intro us fuel pair p' hus hgp0 hfold
    obtain ⟨hplen, hcross, hsym⟩ := hgp0
    obtain ⟨D, hD, k0, k1, k2, k3, k4, k5, k6⟩ :=
      initializeSearchLayer_spec conns pair n G hGn hc1 hcross
    rw [hD] at hfold
    obtain ⟨c1, _, _, _, _⟩ := augment_fold_spec conns D n G fuel hGn hc1 k1 us pair
      hus ⟨hplen, hcross, hsym⟩ k6
    rw [hfold] at c1
    exact ⟨c1.2.2, goodPair_inj p' G n c1⟩
  · obtain ⟨P, Dd, hPD, hgen, hgp, hedge, hmc, hDd, hbs⟩ := generate_core m shuffled hv hs
    rw [hgen]
    dsimp only
    exact ⟨hgp.2.2, goodPair_inj P m.givers.length shuffled.length hgp⟩

/-- Witness for C6 at the concrete two-participant instance. -/
theorem match_state_symmetric_witness :
    2 ≤ 4 ∧ (∀ g, ∀ v ∈ sampleMatcher.conns.getD g [], 2 ≤ v ∧ v < 4) ∧
    ValidMatcher sampleMatcher ∧ Shuffles sampleMatcher.conns sampleMatcher.conns ∧
    (((∀ u v, (newMatcher [1, 2] [1, 2]).pair.getD u none = some v →
        (newMatcher [1, 2] [1, 2]).pair.getD v none = some u) ∧
     (∀ u v w, (newMatcher [1, 2] [1, 2]).pair.getD u none = some w →
        (newMatcher [1, 2] [1, 2]).pair.getD v none = some w → u = v)) ∧
    (∀ (us : List Nat) (fuel : Nat) (pair p' : List (Option Nat)),
      (∀ u ∈ us, u < 2) → GoodPair pair 2 4 →
      us.foldl (fun q u =>
        if q.getD u none = none
        then (attemptAssignment sampleMatcher.conns
          (initializeSearchLayer sampleMatcher.conns pair 2 4) 4 fuel u q).2
        else q) pair = p' →
      (∀ u v, p'.getD u none = some v → p'.getD v none = some u) ∧
      (∀ u v w, p'.getD u none = some w → p'.getD v none = some w → u = v)) ∧
    ((∀ u v, (generateSecretSantaPairs sampleMatcher
          sampleMatcher.conns).2.pair.getD u none = some v →
        (generateSecretSantaPairs sampleMatcher
          sampleMatcher.conns).2.pair.getD v none = some u) ∧
     (∀ u v w, (generateSecretSantaPairs sampleMatcher
          sampleMatcher.conns).2.pair.getD u none = some w →
        (generateSecretSantaPairs sampleMatcher
          sampleMatcher.conns).2.pair.getD v none = some w → u = v))) :=
  ⟨by decide,
   (valid_shuffle_facts sampleMatcher sampleMatcher.conns
     sampleMatcher_valid (shuffles_refl _)).2.2.1,
   sampleMatcher_valid, shuffles_refl _,
   match_state_symmetric [1, 2] [1, 2] sampleMatcher.conns 2 4 (by decide)
     ((valid_shuffle_facts sampleMatcher sampleMatcher.conns
       sampleMatcher_valid (shuffles_refl _)).2.2.1)
     sampleMatcher sampleMatcher.conns sampleMatcher_valid (shuffles_refl _)⟩

/-- C10: calling `generateSecretSantaPairs` a second time on the instance left
by a first call returns the same map and leaves the match state unchanged, for
every behaviour of both random shuffles: the first call left a maximum
matching, so the second call's initial BFS fails and its loop body never
runs. -/
theorem generate_idempotent (m : Matcher) (shuffled shuffled2 : List (List Nat))
    (hv : ValidMatcher m) (hs : Shuffles m.conns shuffled)
    (hs2 : Shuffles (generateSecretSantaPairs m shuffled).2.conns shuffled2) :
    (generateSecretSantaPairs (generateSecretSantaPairs m shuffled).2 shuffled2).1 =
      (generateSecretSantaPairs m shuffled).1 ∧
    (generateSecretSantaPairs (generateSecretSantaPairs m shuffled).2 shuffled2).2.pair =
      (generateSecretSantaPairs m shuffled).2.pair := by
  obtain ⟨P, Dd, hPD, hgen, hgp, hedge, hmc, hDd, hbs⟩ := generate_core m shuffled hv hs
  obtain ⟨hn, hGn, hc1', hcE'⟩ := valid_shuffle_facts m shuffled hv hs
  rw [hgen] at hs2 ⊢
  dsimp only at hs2 ⊢
  have hn2 : shuffled2.length = shuffled.length := shuffles_length hs2
  have hc1'' : ∀ g, ∀ v ∈ shuffled2.getD g [],
      m.givers.length ≤ v ∧ v < shuffled2.length := by
    intro g v hv'
    have := hc1' g v ((shuffles_mem hs2 g v).mpr hv')
    omega
  have hcE'' : ∀ g, m.givers.length ≤ g → shuffled2.getD g [] = [] := by
    intro g hg
    have hperm := shuffles_getD hs2 g
    rw [hcE' g hg] at hperm
    exact List.perm_nil.mp hperm.symm
  have hgp2 : GoodPair P m.givers.length shuffled2.length := by
    rw [hn2]
    exact hgp
  have hbs2 : bfsSuccess
      (initializeSearchLayer shuffled2 P m.givers.length shuffled2.length)
      shuffled2.length = false := by
    cases hb : bfsSuccess
        (initializeSearchLayer shuffled2 P m.givers.length shuffled2.length)
        shuffled2.length with
    | false => rfl
    | true =>
      obtain ⟨g, vs, hg, hpg, hap⟩ := (bfs_true_iff_augpath shuffled2 P
        shuffled2.length m.givers.length (by omega) hc1'' hcE'' hgp2).mp hb
      have hap' : IsAugPath shuffled P g vs := (augPath_shuffles hs2 P vs g).mpr hap
      have htrue := (bfs_true_iff_augpath shuffled P shuffled.length m.givers.length
        hGn hc1' hcE' hgp).mpr ⟨g, vs, hg, hpg, hap'⟩
      rw [← hDd] at htrue
      rw [htrue] at hbs
      cases hbs
  have hloop2 : hkLoop shuffled2 shuffled2.length m.givers.length
      (m.givers.length + 1) P =
      (P, initializeSearchLayer shuffled2 P m.givers.length shuffled2.length) := by
    rw [hkLoop_succ_eq, hbs2]
    simp
  constructor
  · rw [generate_eq]
    dsimp only
    rw [hloop2]
    exact extractPairs_congr m shuffled P Dd P
  · rw [generate_eq]
    dsimp only
    rw [hloop2]

/-- Witness for C10 at the concrete two-participant instance. -/
theorem generate_idempotent_witness :
    ValidMatcher sampleMatcher ∧ Shuffles sampleMatcher.conns sampleMatcher.conns ∧
    Shuffles (generateSecretSantaPairs sampleMatcher sampleMatcher.conns).2.conns
      sampleMatcher.conns ∧
    ((generateSecretSantaPairs
        (generateSecretSantaPairs sampleMatcher sampleMatcher.conns).2
        sampleMatcher.conns).1 =
      (generateSecretSantaPairs sampleMatcher sampleMatcher.conns).1 ∧
    (generateSecretSantaPairs
        (generateSecretSantaPairs sampleMatcher sampleMatcher.conns).2
        sampleMatcher.conns).2.pair =
      (generateSecretSantaPairs sampleMatcher sampleMatcher.conns).2.pair) :=
  ⟨sampleMatcher_valid, shuffles_refl _, shuffles_refl _,
    generate_idempotent sampleMatcher sampleMatcher.conns sampleMatcher.conns
      sampleMatcher_valid (shuffles_refl _) (shuffles_refl _)⟩

/-- C3: when givers and receivers have the same length, the receiver
identifiers are pairwise distinct, and the returned map is complete (size
`G`), the map's values are pairwise distinct and equal, as a set, exactly the
receiver identifier set. -/
theorem generate_bijection (m : Matcher) (shuffled : List (List Nat))
    (hv : ValidMatcher m) (hs : Shuffles m.conns shuffled)
    (hGR : m.givers.length = m.receivers.length)
    (hndr : m.receivers.Nodup)
    (hsize : (generateSecretSantaPairs m shuffled).1.length = m.givers.length) :
    ((generateSecretSantaPairs m shuffled).1.map Prod.snd).Nodup ∧
    (∀ y, (∃ kv ∈ (generateSecretSantaPairs m shuffled).1, kv.2 = y) ↔
      y ∈ m.receivers) := by
  classical
  obtain ⟨P, Dd, hPD, hgen, hgp, hedge, hmc, hDd, hbs⟩ := generate_core m shuffled hv hs
  obtain ⟨hn, hGn, hc1', hcE'⟩ := valid_shuffle_facts m shuffled hv hs
  rw [hgen] at hsize ⊢
  dsimp only at hsize ⊢
  rw [extractPairs_eq_fold] at hsize ⊢
  obtain ⟨hform, hmatch⟩ := extract_fold_exact m P (List.range m.givers.length) []
    (by rw [List.length_nil, List.length_range]; omega)
  rw [List.nil_append] at hform
  have hrv : ∀ i, i < m.givers.length → ∃ rv, P.getD i none = some rv ∧
      m.givers.length ≤ rv ∧ rv - m.givers.length < m.receivers.length := by
    intro i hi
    obtain ⟨rv, hPi⟩ := Option.isSome_iff_exists.mp (hmatch i (List.mem_range.mpr hi))
    have hcr := hgp.2.1 i rv hPi
    have hge : m.givers.length ≤ rv := by
      have := hcr.2.mp hi
      omega
    have hlt := hcr.1
    exact ⟨rv, hPi, hge, by omega⟩
  have hfi : ∀ i, i < m.givers.length →
      (P.getD i none).getD 0 - m.givers.length < m.receivers.length := by
    intro i hi
    obtain ⟨rv, hPi, hge, hlt⟩ := hrv i hi
    rw [hPi]
    simpa using hlt
  have hinj : ∀ i j, i < m.givers.length → j < m.givers.length →
      (P.getD i none).getD 0 - m.givers.length =
        (P.getD j none).getD 0 - m.givers.length → i = j := by
    intro i j hi hj he
    obtain ⟨rvi, hPi, hgei, _⟩ := hrv i hi
    obtain ⟨rvj, hPj, hgej, _⟩ := hrv j hj
    rw [hPi, hPj] at he
    simp at he
    have hrveq : rvi = rvj := by omega
    have h1 := hgp.2.2 i rvi hPi
    have h2 := hgp.2.2 j rvj hPj
    rw [← hrveq] at h2
    rw [h1] at h2
    exact Option.some.inj h2
  have himg : Finset.image
      (fun i => (P.getD i none).getD 0 - m.givers.length)
      (Finset.range m.givers.length) = Finset.range m.receivers.length := by
    apply Finset.eq_of_subset_of_card_le
    · intro x hx
      obtain ⟨i, hi, rfl⟩ := Finset.mem_image.mp hx
      exact Finset.mem_range.mpr (hfi i (Finset.mem_range.mp hi))
    · rw [Finset.card_image_of_injOn (fun i hi j hj he =>
        hinj i j (Finset.mem_range.mp hi) (Finset.mem_range.mp hj) he),
        Finset.card_range, Finset.card_range]
      omega
  constructor
  · rw [hform, List.map_map]
    exact List.Nodup.map_on
      (fun x hx y hy he => hinj x y (List.mem_range.mp hx) (List.mem_range.mp hy)
        (nodup_getD_inj hndr (hfi x (List.mem_range.mp hx))
          (hfi y (List.mem_range.mp hy)) he))
      (List.nodup_range _)
  · intro y
    rw [hform]
    constructor
    · rintro ⟨kv, hkv, hky⟩
      obtain ⟨i, hi, rfl⟩ := List.mem_map.mp hkv
      rw [← hky]
      exact getD_mem_int _ _ (hfi i (List.mem_range.mp hi))
    · intro hy
      obtain ⟨j, hj, hyj⟩ := List.mem_iff_getElem.mp hy
      have hjimg : j ∈ Finset.image
          (fun i => (P.getD i none).getD 0 - m.givers.length)
          (Finset.range m.givers.length) := by
        rw [himg]
        exact Finset.mem_range.mpr hj
      obtain ⟨i, hi, hfij⟩ := Finset.mem_image.mp hjimg
      have hiG := Finset.mem_range.mp hi
      refine ⟨(m.givers.getD i 0,
        m.receivers.getD ((P.getD i none).getD 0 - m.givers.length) 0),
        List.mem_map.mpr ⟨i, List.mem_range.mpr hiG, rfl⟩, ?_⟩
      show m.receivers.getD ((P.getD i none).getD 0 - m.givers.length) 0 = y
      rw [hfij, List.getD_eq_getElem?_getD, List.getElem?_eq_getElem hj]
      simpa using hyj

/-- Witness for C3 at the concrete two-participant instance. -/
theorem generate_bijection_witness :
    ValidMatcher sampleMatcher ∧ Shuffles sampleMatcher.conns sampleMatcher.conns ∧
    sampleMatcher.givers.length = sampleMatcher.receivers.length ∧
    sampleMatcher.receivers.Nodup ∧
    (generateSecretSantaPairs sampleMatcher sampleMatcher.conns).1.length =
      sampleMatcher.givers.length ∧
    (((generateSecretSantaPairs sampleMatcher sampleMatcher.conns).1.map
        Prod.snd).Nodup ∧
    (∀ y, (∃ kv ∈ (generateSecretSantaPairs sampleMatcher sampleMatcher.conns).1,
        kv.2 = y) ↔ y ∈ sampleMatcher.receivers)) :=
  ⟨sampleMatcher_valid, shuffles_refl _, by decide, by decide, by decide,
    generate_bijection sampleMatcher sampleMatcher.conns sampleMatcher_valid
      (shuffles_refl _) (by decide) (by decide) (by decide)⟩

end SecretSanta
